import Mathlib

/-!
Verification of the masking/unmasking engine and session workflow of the
Chainlit research-assistant repository.

The Python sources are embedded shallowly:

* `src/agents/masking_agent.py` — `MaskingAgent.analyze_and_mask` and
  `MaskingAgent.unmask_text`.  The upstream LLM call is external; the
  function is modelled from the point where the response payload has been
  extracted (stripped, markdown fences removed).  The outcome of Python's
  `json.loads` on that payload is an explicit input of type `Option JValue`
  (`none` models a `json.JSONDecodeError`).  A raised Python exception is
  modelled as `Except.error`; in the source every such error is re-raised as
  `Exception("Masking failed: ...")` by the final handler.
* `src/agents/research_agent.py` — `ResearchAgent._extract_sources`.
* `src/app.py` — the per-session workflow state machine: the session fields
  set through `cl.user_session`, `start_masking_workflow`, the external-mode
  branch of `handle_message`, and the `approve` action callback.  The two
  delegate calls made by `on_approve` are recorded in an explicit call trace;
  their outcomes are inputs.

Strings are `List Char`; JSON numbers are `ℚ` (the spec's confidence
constants 0.0 / 0.7 / 0.8 / 0.9 are exactly representable).  Equality on
`JValue` is structural; Python's cross-type numeric equality (`True == 1`)
is not modelled, and no claim depends on it.
-/

/-- Convert a Lean string literal to the `List Char` representation used
throughout the embedding. -/
def sl (s : String) : List Char := s.toList

/-- A parsed JSON value, the result type of Python's `json.loads`.
Objects are association lists; `json.loads` never produces duplicate keys
(later duplicates in the raw text overwrite earlier ones), and lookups are
last-wins to match that behaviour on degenerate inputs. -/
inductive JValue where
  | null : JValue
  | bool : Bool → JValue
  | num : ℚ → JValue
  | str : List Char → JValue
  | arr : List JValue → JValue
  | obj : List (List Char × JValue) → JValue

/-- Python `==` as used by the source's dict-key comparisons and
membership tests.  Every comparison the source performs is between values
that have passed Python's hashability check (dict keys) or are
`str`-constructed by the code itself, so both operands are always `null`,
`bool`, `num` or `str`; on (unreachable) comparisons involving lists or
dicts the model returns `false`. -/
def jeq : JValue → JValue → Bool
  | .null, .null => true
  | .bool x, .bool y => x == y
  | .num x, .num y => x == y
  | .str x, .str y => x == y
  | _, _ => false

/-- A raised Python exception, as distinguished by the claims: `keyError`
(missing dict key), `typeError` (bad subscript / unhashable / not iterable),
`attributeError` (`.get` on a non-dict). -/
inductive PyErr where
  | keyError : PyErr
  | typeError : PyErr
  | attributeError : PyErr
deriving DecidableEq, Repr

/-- Dict lookup, last binding wins (Python dict semantics for the
association lists produced by `json.loads`). -/
def jget (fs : List (List Char × JValue)) (k : List Char) : Option JValue :=
  fs.foldl (fun acc p => if p.1 = k then some p.2 else acc) none

/-- Python subscript `v[k]` with a string key: `KeyError` when the key is
missing from a dict, `TypeError` on any non-dict value. -/
def subscr (v : JValue) (k : List Char) : Except PyErr JValue :=
  match v with
  | .obj fs =>
    match jget fs k with
    | some x => Except.ok x
    | none => Except.error PyErr.keyError
  | _ => Except.error PyErr.typeError

/-- Python `v.get(k, default)` restricted to dicts; returns `none` for the
default case and for non-dicts (callers only use it on known dicts). -/
def jvGet (v : JValue) (k : List Char) : Option JValue :=
  match v with
  | .obj fs => jget fs k
  | _ => none

/-- Python `for x in v`: lists yield their elements, strings yield their
characters (as one-character strings), dicts yield their keys; every other
value raises `TypeError`. -/
def iterElems (v : JValue) : Except PyErr (List JValue) :=
  match v with
  | .arr xs => Except.ok xs
  | .str s => Except.ok (s.map (fun c => JValue.str [c]))
  | .obj fs => Except.ok (fs.map (fun p => JValue.str p.1))
  | _ => Except.error PyErr.typeError

/-- Python hashability check performed when a value is used as a dict key:
lists and dicts raise `TypeError`. -/
def hashable (v : JValue) : Except PyErr Unit :=
  match v with
  | .arr _ => Except.error PyErr.typeError
  | .obj _ => Except.error PyErr.typeError
  | _ => Except.ok ()

/-- Python dict assignment `d[k] = v`: update in place if the key exists,
else append. -/
def dinsert (d : List (JValue × JValue)) (k v : JValue) : List (JValue × JValue) :=
  if d.any (fun p => jeq p.1 k) then
    d.map (fun p => if jeq p.1 k then (k, v) else p)
  else d ++ [(k, v)]

/-- One entry of `detected_entities[category]`: the source always builds the
dict `{"original": ..., "masked": ..., "confidence": ...}`. -/
structure EntityRec where
  original : JValue
  masked : JValue
  confidence : JValue

/-- Lookup in the `detected_entities` dict, last binding wins. -/
def jdeGet (de : List (JValue × List EntityRec)) (k : JValue) : Option (List EntityRec) :=
  de.foldl (fun acc p => if jeq p.1 k then some p.2 else acc) none

/-- The two-statement idiom of the source: ensure `detected_entities` has the
category key, then append the entry to its list. -/
def deAppend (de : List (JValue × List EntityRec)) (cat : JValue) (e : EntityRec) :
    List (JValue × List EntityRec) :=
  if de.any (fun p => jeq p.1 cat) then
    de.map (fun p => if jeq p.1 cat then (p.1, p.2 ++ [e]) else p)
  else de ++ [(cat, [e])]

/-- `MaskingResult` of `masking_agent.py`: the dataclass fields are untyped
in Python, so every field the upstream payload can populate is a `JValue`. -/
structure MaskingResult where
  original_text : List Char
  masked_text : JValue
  detected_entities : List (JValue × List EntityRec)
  mask_mapping : List (JValue × JValue)
  confidence : JValue

/-! ## Python `str.replace` (`List Char` model)

`str.replace(pat, rep)` replaces every non-overlapping occurrence of `pat`
left to right.  For the empty pattern Python inserts `rep` before every
character and at the end. -/

/-- Replacement loop for a non-empty pattern `p :: ps`, with explicit fuel:
every iteration consumes at least one character of `s`, so `s.length` fuel
is always enough (`replFuel_fuel_irrel`); the fuel only serves to make the
recursion structural so that the kernel can evaluate it. -/
def replFuel : Nat → List Char → Char → List Char → List Char → List Char
  | 0, s, _, _, _ => s
  | fuel + 1, s, p, ps, rep =>
    match s with
    | [] => []
    | c :: tl =>
      if (p :: ps).isPrefixOf (c :: tl) then
        rep ++ replFuel fuel (tl.drop ps.length) p ps rep
      else
        c :: replFuel fuel tl p ps rep

/-- Replacement of every non-overlapping occurrence of `p :: ps`, left to
right. -/
def replAux (s : List Char) (p : Char) (ps rep : List Char) : List Char :=
  replFuel s.length s p ps rep

/-- Python `s.replace(pat, rep)`. -/
def pyReplace (s pat rep : List Char) : List Char :=
  match pat with
  | [] => rep ++ (s.map (fun c => c :: rep)).flatten
  | p :: ps => replAux s p ps rep

/-- `MaskingAgent.unmask_text`: fold of `str.replace` over the mapping in
insertion (dict) order. -/
def unmask_text (masked_text : List Char) (mask_mapping : List (List Char × List Char)) :
    List Char :=
  mask_mapping.foldl (fun result p => pyReplace result p.1 p.2) masked_text

/-! ## The JSON-success path of `analyze_and_mask` (lines 190-213) -/

/-- Body of the `for entity in result_data.get("entities", [])` loop:
`mask_mapping[entity["masked"]] = entity["original"]` followed by the
`detected_entities` bookkeeping.  Python evaluates the assignment's right
hand side first, so a missing `original` key errors before a missing
`masked` key; an unhashable key raises `TypeError` at the dict assignment. -/
def entStep (acc : List (JValue × JValue) × List (JValue × List EntityRec)) (ent : JValue) :
    Except PyErr (List (JValue × JValue) × List (JValue × List EntityRec)) := do
  let o ← subscr ent (sl "original")
  let mk ← subscr ent (sl "masked")
  let _ ← hashable mk
  let mm := dinsert acc.1 mk o
  let c ← subscr ent (sl "category")
  let _ ← hashable c
  let cf := (jvGet ent (sl "confidence")).getD (JValue.num ((9 : ℚ) / 10))
  Except.ok (mm, deAppend acc.2 c { original := o, masked := mk, confidence := cf })

/-- Processing of a successfully parsed payload `result_data`: any raised
error is caught by the final `except Exception` handler of the source and
re-raised as `Exception("Masking failed: ...")`, modelled as `Except.error`. -/
def buildFromJson (text : List Char) (v : JValue) : Except PyErr MaskingResult := do
  let fs ← match v with
    | .obj fs => Except.ok fs
    | _ => Except.error PyErr.attributeError
  let elems ← iterElems ((jget fs (sl "entities")).getD (.arr []))
  let md ← elems.foldlM entStep ([], [])
  Except.ok
    { original_text := text
      masked_text := (jget fs (sl "masked_text")).getD (.str text)
      detected_entities := md.2
      mask_mapping := md.1
      confidence := (jget fs (sl "overall_confidence")).getD (.num ((9 : ℚ) / 10)) }

/-! ## The recovery path of `analyze_and_mask` (lines 215-267)

Models `re.search(r'"masked_text":\s*"(.*?)(?:"\s*,\s*"entities"|$)', raw,
re.DOTALL)` and `re.findall(r'\[([A-Z_]+)_(\d+)\]', extracted)`. -/

/-- Python regex `\s` on ASCII input. -/
def isREspace (c : Char) : Bool :=
  c == ' ' || c == '\t' || c == '\n' || c == '\r' || c == '\x0b' || c == '\x0c'

/-- Try to match `"masked_text":\s*"` at the head of `s`; on success return
the remainder after the opening quote of the captured group. -/
def matchStart (s : List Char) : Option (List Char) :=
  if (sl "\"masked_text\":").isPrefixOf s then
    match (s.drop (sl "\"masked_text\":").length).dropWhile isREspace with
    | '"' :: tail => some tail
    | _ => none
  else none

/-- Leftmost position where the pattern's mandatory part matches
(`re.search` semantics). -/
def findStart : List Char → Option (List Char)
  | [] => none
  | c :: tl =>
    match matchStart (c :: tl) with
    | some r => some r
    | none => findStart tl

/-- The terminator alternative `"\s*,\s*"entities"` of the capture group. -/
def termA (s : List Char) : Bool :=
  match s with
  | '"' :: r =>
    match r.dropWhile isREspace with
    | ',' :: r2 => (sl "\"entities\"").isPrefixOf (r2.dropWhile isREspace)
    | _ => false
  | _ => false

/-- The lazy capture `(.*?)`: grow until the terminator alternation matches.
`$` (no `MULTILINE`) matches at the end of the string and just before a
final newline; with `DOTALL` the dot also consumes newlines. -/
def capture : List Char → List Char
  | [] => []
  | c :: rest =>
    if termA (c :: rest) || (c == '\n' && rest.isEmpty) then []
    else c :: capture rest

/-- The source's unescaping of the salvaged group:
`.replace('\\"', '"').replace('\\n', '\n')`. -/
def unescapeJson (s : List Char) : List Char :=
  pyReplace (pyReplace s ['\\', '"'] ['"']) ['\\', 'n'] ['\n']

/-- The whole `re.search` for `masked_text`, returning the unescaped
captured group when the pattern matches. -/
def findMaskedText (s : List Char) : Option (List Char) :=
  (findStart s).map (fun rest => unescapeJson (capture rest))

/-- Character class `[A-Z_]` of the placeholder regex. -/
def isPhClassChar (c : Char) : Bool := c.isUpper || c == '_'

/-- Try to match `\[([A-Z_]+)_(\d+)\]` at the head of `s`: the greedy
`[A-Z_]+` run must end with the literal `_` (digits are outside the class,
so backtracking leaves exactly the final underscore), then one or more
digits, then `]`.  Returns `(category, digits, remainder)`. -/
def matchPh (s : List Char) : Option (List Char × List Char × List Char) :=
  match s with
  | '[' :: r =>
    let run := r.takeWhile isPhClassChar
    if run.getLast? == some '_' && decide (2 ≤ run.length) then
      let r2 := r.dropWhile isPhClassChar
      let ds := r2.takeWhile Char.isDigit
      if ds.isEmpty then none
      else
        match r2.dropWhile Char.isDigit with
        | ']' :: r4 => some (run.dropLast, ds, r4)
        | _ => none
    else none
  | _ => none

/-- A successful placeholder match consumes at least one character. -/
theorem matchPh_rest_length {s : List Char} {x : List Char × List Char × List Char}
    (h : matchPh s = some x) : x.2.2.length < s.length := by
  match s with
  | [] => simp [matchPh] at h
  | c :: r =>
    by_cases hc : c = '['
    · subst hc
      simp only [matchPh] at h
      split at h
      · split at h
        · exact absurd h (by simp)
        · split at h
          · rename_i r4 heq
            have h1 : (r.dropWhile isPhClassChar).length ≤ r.length :=
              (List.dropWhile_sublist _).length_le
            have h2 : ((r.dropWhile isPhClassChar).dropWhile Char.isDigit).length ≤
                (r.dropWhile isPhClassChar).length := (List.dropWhile_sublist _).length_le
            have h3 : ((r.dropWhile isPhClassChar).dropWhile Char.isDigit).length =
                r4.length + 1 := by rw [heq]; simp
            have h4 : x.2.2 = r4 := by
              cases h
              rfl
            simp only [h4, List.length_cons]
            omega
          · exact absurd h (by simp)
      · exact absurd h (by simp)
    · have : matchPh (c :: r) = none := by
        unfold matchPh
        match c, hc with
        | c, hc =>
          split
          · rename_i heq
            cases heq
            exact absurd rfl hc
          · rfl
      rw [this] at h
      exact absurd h (by simp)

/-- `re.findall` of the placeholder regex, with structural fuel: matches are
non-overlapping and leftmost, a failed attempt advances one character, so
`s.length` fuel is always enough (`findAllPhFuel_fuel_irrel`). -/
def findAllPhFuel : Nat → List Char → List (List Char × List Char)
  | 0, _ => []
  | fuel + 1, s =>
    match matchPh s with
    | some (cat, ds, rest) => (cat, ds) :: findAllPhFuel fuel rest
    | none =>
      match s with
      | [] => []
      | _ :: tl => findAllPhFuel fuel tl

/-- `re.findall(r'\[([A-Z_]+)_(\d+)\]', s)`: leftmost, non-overlapping. -/
def findAllPh (s : List Char) : List (List Char × List Char) :=
  findAllPhFuel s.length s

/-- The synthesized placeholder string `f"[{category}_{num}]"` of the
recovery path. -/
def phToken (cat num : List Char) : List Char :=
  '[' :: (cat ++ ('_' :: (num ++ [']'])))

/-- The sentinel original `f'<{category.lower()}_{num}>'` standing in for the
unknown true value. -/
def sentinelOf (cat num : List Char) : List Char :=
  '<' :: (cat.map Char.toLower ++ ('_' :: (num ++ ['>'])))

/-- One iteration of the recovery loop over the placeholders found in the
salvaged masked text (lines 237-248): ensure the category key, then append
the synthesized entity and mapping entry unless this placeholder was already
recorded for the category. -/
def recStep (acc : List (JValue × List EntityRec) × List (JValue × JValue))
    (pr : List Char × List Char) :
    List (JValue × List EntityRec) × List (JValue × JValue) :=
  let ph := phToken pr.1 pr.2
  let de :=
    if acc.1.any (fun q => jeq q.1 (.str pr.1)) then acc.1
    else acc.1 ++ [(.str pr.1, [])]
  let cur := (jdeGet de (.str pr.1)).getD []
  if cur.any (fun e => jeq e.masked (.str ph)) then (de, acc.2)
  else
    (deAppend de (.str pr.1)
      { original := .str (sentinelOf pr.1 pr.2)
        masked := .str ph
        confidence := .num ((4 : ℚ) / 5) },
     dinsert acc.2 (.str ph) (.str (sentinelOf pr.1 pr.2)))

/-- The whole `except json.JSONDecodeError` handler (lines 215-267): salvage
`masked_text` if the search pattern matches, synthesizing placeholder-only
entities at confidence 0.8 and overall confidence 0.7; otherwise return the
input unchanged with empty mapping and zero confidence.  The handler body is
total, so this path never raises. -/
def recoverFromRaw (text payload : List Char) : MaskingResult :=
  match findMaskedText payload with
  | some extracted =>
    let dm := (findAllPh extracted).foldl recStep ([], [])
    { original_text := text
      masked_text := .str extracted
      detected_entities := dm.1
      mask_mapping := dm.2
      confidence := .num ((7 : ℚ) / 10) }
  | none =>
    { original_text := text
      masked_text := .str text
      detected_entities := []
      mask_mapping := []
      confidence := .num 0 }

/-- `MaskingAgent.analyze_and_mask`, from the point where the upstream call
has returned and the payload has been extracted from markdown fences.
`parsed` is the outcome of `json.loads payload` (`none` = `JSONDecodeError`);
`payload` is the raw text the recovery regex searches.  An `Except.error`
models the re-raised `Exception("Masking failed: ...")` of the final
handler; a failure of the upstream call itself (network/auth) happens before
this point and is out of scope of this function's malformed-output policy. -/
def analyze_and_mask (text : List Char) (parsed : Option JValue) (payload : List Char) :
    Except PyErr MaskingResult :=
  match parsed with
  | some v => buildFromJson text v
  | none => Except.ok (recoverFromRaw text payload)

/-! ## `ResearchAgent._extract_sources` (research_agent.py, lines 117-121) -/

/-- Character class `[^\s\)\]>]` of the URL regex. -/
def isUrlChar (c : Char) : Bool :=
  !(isREspace c || c == ')' || c == ']' || c == '>')

/-- Continuation of the URL match after a scheme literal matched: the
greedy `[^\\s\\)\\]>]+` run, which must be non-empty. -/
def matchUrlAfter (scheme s : List Char) : Option (List Char × List Char) :=
  if ((s.drop scheme.length).takeWhile isUrlChar).isEmpty then none
  else
    some (scheme ++ (s.drop scheme.length).takeWhile isUrlChar,
      (s.drop scheme.length).dropWhile isUrlChar)

/-- Try to match `https?://[^\\s\\)\\]>]+` at the head of `s`; returns the
matched URL and the remainder.  The optional `s?` backtracks: `https://`
is tried first, then `http://` (no other split can satisfy `://`). -/
def matchUrl (s : List Char) : Option (List Char × List Char) :=
  if (sl "https://").isPrefixOf s then matchUrlAfter (sl "https://") s
  else if (sl "http://").isPrefixOf s then matchUrlAfter (sl "http://") s
  else none

/-- A successful continuation match decomposes its input. -/
theorem matchUrlAfter_decomp {scheme s : List Char} {x : List Char × List Char}
    (hpre : scheme <+: s) (h : matchUrlAfter scheme s = some x) :
    x.1 ++ x.2 = s ∧ scheme.length ≤ x.1.length := by
  obtain ⟨t, ht⟩ := hpre
  unfold matchUrlAfter at h
  split at h
  · exact absurd h (by simp)
  · cases h
    have hdrop : s.drop scheme.length = t := by
      rw [← ht, List.drop_left]
    refine ⟨?_, by simp⟩
    rw [hdrop, List.append_assoc, List.takeWhile_append_dropWhile, ht]

/-- A successful URL match decomposes its input. -/
theorem matchUrl_decomp {s : List Char} {x : List Char × List Char}
    (h : matchUrl s = some x) : x.1 ++ x.2 = s ∧ 0 < x.1.length := by
  unfold matchUrl at h
  split at h
  · rename_i h8
    have := matchUrlAfter_decomp (List.isPrefixOf_iff_prefix.mp h8) h
    exact ⟨this.1, by have := this.2; simp [sl] at this ⊢; omega⟩
  · split at h
    · rename_i h7
      have := matchUrlAfter_decomp (List.isPrefixOf_iff_prefix.mp h7) h
      exact ⟨this.1, by have := this.2; simp [sl] at this ⊢; omega⟩
    · exact absurd h (by simp)

/-- A successful URL match consumes at least one character. -/
theorem matchUrl_rest_length {s : List Char} {x : List Char × List Char}
    (h : matchUrl s = some x) : x.2.length < s.length := by
  obtain ⟨hd, hp⟩ := matchUrl_decomp h
  have := congrArg List.length hd
  simp only [List.length_append] at this
  omega

/-- `re.findall(r'https?://[^\s\)\]>]+', s)` with structural fuel:
leftmost, non-overlapping, greedy; a failed attempt advances one character,
so `s.length` fuel is always enough (`findAllUrlsFuel_fuel_irrel`). -/
def findAllUrlsFuel : Nat → List Char → List (List Char)
  | 0, _ => []
  | fuel + 1, s =>
    match matchUrl s with
    | some (u, rest) => u :: findAllUrlsFuel fuel rest
    | none =>
      match s with
      | [] => []
      | _ :: tl => findAllUrlsFuel fuel tl

/-- All URL matches of the response text, leftmost and non-overlapping. -/
def findAllUrls (s : List Char) : List (List Char) :=
  findAllUrlsFuel s.length s

/-- Duplicate removal.  The source uses `list(set(urls))`, whose order is
unspecified (string hashing is seed-randomized); the model fixes
first-occurrence order, and every claim about `sources` is
order-insensitive. -/
def dedupFirst (l : List (List Char)) : List (List Char) :=
  l.foldl (fun acc u => if u ∈ acc then acc else acc ++ [u]) []

/-- `ResearchAgent._extract_sources`. -/
def extract_sources (text : List Char) : List (List Char) :=
  dedupFirst (findAllUrls text)

/-- `ResearchResult` of `research_agent.py`. -/
structure ResearchResult where
  query : List Char
  response : List Char
  sources : List (List Char)
  model_used : List Char

/-- `ReasoningResult` of `reasoning_agent.py` (only the field read by the
workflow is relevant here). -/
structure ReasoningResult where
  final_response : List Char

/-! ## The session workflow state machine (`app.py`)

Session state is the set of `cl.user_session` slots the workflow mutates.
Each handler is a function of the session and of the injected outcomes of
the external calls it makes; `on_approve` additionally returns the trace of
delegate calls it performed, in order. -/

/-- The persisted values of the `workflow_state` session slot. -/
inductive WState where
  | idle : WState
  | awaiting_approval : WState
  | editing : WState
deriving DecidableEq, Repr

/-- An error escaping a delegate call (transport/auth/model failure, or the
re-raised masking failure). -/
inductive SvcErr where
  | serviceError : SvcErr
deriving DecidableEq, Repr

/-- The session slots set through `cl.user_session` that the workflow reads
or writes.  `pending_query` holds `result.masked_text`, which the payload
can make an arbitrary JSON value. -/
structure Session where
  workflow_state : WState
  pending_query : Option JValue
  mask_mapping : List (JValue × JValue)
  original_query : Option (List Char)
  detected_entities : List (JValue × List EntityRec)

/-- `on_chat_start` (lines 40-48): the initial session. -/
def initSession : Session :=
  { workflow_state := .idle
    pending_query := none
    mask_mapping := []
    original_query := none
    detected_entities := [] }

/-- Python truthiness of a `JValue`, as used by `if not masked_query:`. -/
def jfalsy : JValue → Bool
  | .null => true
  | .bool b => !b
  | .num q => q == 0
  | .str s => s.isEmpty
  | .arr xs => xs.isEmpty
  | .obj fs => fs.isEmpty

/-- `start_masking_workflow` (lines 195-301): store the original query, call
the masking agent with the given outcome; on success store the result and
move to `awaiting_approval`; on failure report and return with the state
untouched. -/
def start_masking_workflow (s : Session) (user_query : List Char)
    (outcome : Except PyErr MaskingResult) : Session :=
  let s := { s with original_query := some user_query }
  match outcome with
  | .error _ => s
  | .ok r =>
    { s with
      pending_query := some r.masked_text
      mask_mapping := r.mask_mapping
      detected_entities := r.detected_entities
      workflow_state := .awaiting_approval }

/-- The external-mode branch of `handle_message` (lines 126-132): force the
state to `idle`, then run the masking workflow on the input. -/
def handleMessageExternal (s : Session) (user_input : List Char)
    (outcome : Except PyErr MaskingResult) : Session :=
  let s :=
    if s.workflow_state ≠ .idle then { s with workflow_state := .idle } else s
  start_masking_workflow s user_input outcome

/-- One delegate call performed by `on_approve`, in trace order. -/
inductive Call where
  | research (query : JValue)
  | synthesize (original_query : Option (List Char)) (research_response : List Char)
      (mapping : List (JValue × JValue))

/-- `on_approve` (lines 304-388): read the stored query/mapping; a falsy
pending query aborts; otherwise run research then synthesis with the given
outcomes, resetting `workflow_state` to `idle` on either failure and
clearing `pending_query` only on full success. -/
def on_approve (s : Session) (researchOutcome : Except SvcErr ResearchResult)
    (synthesisOutcome : Except SvcErr ReasoningResult) : Session × List Call :=
  match s.pending_query with
  | none => (s, [])
  | some q =>
    if jfalsy q then (s, [])
    else
      match researchOutcome with
      | .error _ => ({ s with workflow_state := .idle }, [.research q])
      | .ok rr =>
        match synthesisOutcome with
        | .error _ =>
          ({ s with workflow_state := .idle },
           [.research q, .synthesize s.original_query rr.response s.mask_mapping])
        | .ok _ =>
          ({ s with workflow_state := .idle, pending_query := none },
           [.research q, .synthesize s.original_query rr.response s.mask_mapping])

/-- `on_cancel` (lines 412-420). -/
def on_cancel (s : Session) : Session :=
  { s with workflow_state := .idle, pending_query := none }

/-! ## Predicates and auxiliary notions used by the claim statements -/

/-- `pat` occurs as a contiguous substring of `s` (Python `pat in s`). -/
def containsSub (s pat : List Char) : Bool :=
  match s with
  | [] => pat.isPrefixOf []
  | _ :: tl => pat.isPrefixOf s || containsSub tl pat

/-- The claim's placeholder grammar `[A-Z_]+_[0-9]+` enclosed in brackets:
the string is exactly one placeholder token.  Reuses the placeholder
matcher, anchored by requiring an empty remainder. -/
def placeholderShaped (k : List Char) : Bool :=
  match matchPh k with
  | some x => x.2.2.isEmpty
  | none => false

/-- The URL grammar `https?://[^\s\)\]>]+`: the string is exactly one URL
token. -/
def isUrlToken (u : List Char) : Bool :=
  match matchUrl u with
  | some x => x.2.isEmpty
  | none => false

/-- A segment of a substitution decomposition: either a literal character of
the original text, or an entity occurrence `(placeholder, original)`. -/
abbrev Seg : Type := Sum Char (List Char × List Char)

/-- Render a decomposition as the original text: chunks verbatim, entity
occurrences as their original value. -/
def renderO (segs : List Seg) : List Char :=
  segs.foldr
    (fun sg acc =>
      match sg with
      | Sum.inl c => c :: acc
      | Sum.inr pr => pr.2 ++ acc) []

/-- Render a decomposition as the masked text: chunks verbatim, entity
occurrences as their placeholder.  "masked_text obtained from the original
by substituting each mapped original with its placeholder" means the two
renderings of a common decomposition. -/
def renderM (segs : List Seg) : List Char :=
  segs.foldr
    (fun sg acc =>
      match sg with
      | Sum.inl c => c :: acc
      | Sum.inr pr => pr.1 ++ acc) []

/-- A bracket-delimited token: starts with `[`, ends with `]`, no bracket
characters in between.  Every placeholder of the documented grammar has this
shape, which is what makes replacement unambiguous. -/
def bracketTok (pat : List Char) : Prop :=
  ∃ core : List Char, pat = '[' :: (core ++ [']']) ∧ ∀ c ∈ core, c ≠ '[' ∧ c ≠ ']'

/-- The literal chunk characters of a decomposition. -/
def chunksOf (segs : List Seg) : List Char :=
  segs.filterMap
    (fun sg =>
      match sg with
      | Sum.inl c => some c
      | Sum.inr _ => none)

/-- The entity occurrences of a decomposition. -/
def entriesOf (segs : List Seg) : List (List Char × List Char) :=
  segs.filterMap
    (fun sg =>
      match sg with
      | Sum.inl _ => none
      | Sum.inr pr => some pr)

/-- Replace every entity occurrence carrying placeholder `pat` by the chunk
characters of `val` (the effect of one `str.replace` pass on a
decomposition). -/
def substSegs (segs : List Seg) (pat val : List Char) : List Seg :=
  segs.flatMap
    (fun sg =>
      match sg with
      | Sum.inl c => [Sum.inl c]
      | Sum.inr pr => if pr.1 = pat then val.map Sum.inl else [Sum.inr pr])

/-! ## The well-formed payload family

The system prompt instructs the model to return
`{"masked_text": ..., "entities": [{"original", "masked", "category", ...}]}`
with string fields; this family of payloads is used to characterize the
success path on arbitrary entity lists `(original, masked, category)`. -/

/-- An upstream entity object with string fields. -/
def entObj (t : List Char × List Char × List Char) : JValue :=
  .obj [(sl "original", .str t.1), (sl "masked", .str t.2.1), (sl "category", .str t.2.2)]

/-- An upstream payload with a masked text and an entity list (no
`overall_confidence` and no per-entity `confidence`, so the defaults
apply). -/
def payloadObj (mt : List Char) (ts : List (List Char × List Char × List Char)) : JValue :=
  .obj [(sl "masked_text", .str mt), (sl "entities", .arr (ts.map entObj))]

/-- The mapping the success path builds from a well-formed entity list: one
dict insertion `mask_mapping[masked] = original` per listed entity, in
order. -/
def mmOf (ts : List (List Char × List Char × List Char)) : List (JValue × JValue) :=
  ts.foldl (fun mm t => dinsert mm (.str t.2.1) (.str t.1)) []

/-- The detected-entities dict the success path builds from a well-formed
entity list: one appended entry per listed entity, keyed by category, with
the default confidence 0.9. -/
def deOf (ts : List (List Char × List Char × List Char)) : List (JValue × List EntityRec) :=
  ts.foldl
    (fun de t => deAppend de (.str t.2.2)
      { original := .str t.1, masked := .str t.2.1, confidence := .num ((9 : ℚ) / 10) }) []

/-! ## Lemma library: the replacement loop -/

/-- `replFuel` ignores its fuel on the empty string. -/
theorem replFuel_nil (f : Nat) (p : Char) (ps rep : List Char) :
    replFuel f [] p ps rep = [] := by
  cases f <;> rfl

/-- Any adequate fuel computes the same replacement. -/
theorem replFuel_fuel_irrel :
    ∀ f g (s : List Char) (p : Char) (ps rep : List Char),
      s.length ≤ f → s.length ≤ g →
      replFuel f s p ps rep = replFuel g s p ps rep := by
  intro f
  induction f with
  | zero =>
    intro g s p ps rep hf _
    have : s = [] := List.eq_nil_of_length_eq_zero (Nat.le_zero.mp hf)
    subst this
    rw [replFuel_nil, replFuel_nil]
  | succ f ih =>
    intro g s p ps rep hf hg
    match s with
    | [] => rw [replFuel_nil, replFuel_nil]
    | c :: tl =>
      match g with
      | 0 => simp at hg
      | g + 1 =>
        simp only [List.length_cons] at hf hg
        simp only [replFuel]
        split
        · have h1 : (tl.drop ps.length).length ≤ f := by
            simp only [List.length_drop]
            omega
          have h2 : (tl.drop ps.length).length ≤ g := by
            simp only [List.length_drop]
            omega
          rw [ih g _ p ps rep h1 h2]
        · rw [ih g tl p ps rep (by omega) (by omega)]

/-- The defining equation of `replAux` on a non-empty string. -/
theorem replAux_cons (c : Char) (tl : List Char) (p : Char) (ps rep : List Char) :
    replAux (c :: tl) p ps rep =
      if (p :: ps).isPrefixOf (c :: tl) then
        rep ++ replAux (tl.drop ps.length) p ps rep
      else c :: replAux tl p ps rep := by
  show replFuel (tl.length + 1) (c :: tl) p ps rep = _
  simp only [replFuel]
  split
  · have : replFuel tl.length (tl.drop ps.length) p ps rep = replAux (tl.drop ps.length) p ps rep := by
      apply replFuel_fuel_irrel
      · simp only [List.length_drop]
        omega
      · exact Nat.le_refl _
    rw [this]
  · rfl

/-- A list is a prefix of itself followed by anything. -/
theorem isPrefixOf_append_self (l t : List Char) : l.isPrefixOf (l ++ t) = true :=
  List.isPrefixOf_iff_prefix.mpr ⟨t, rfl⟩

/-- A pattern starting with `p` cannot match at a character different
from `p`. -/
theorem isPrefixOf_cons_of_ne {p c : Char} (ps w : List Char) (h : c ≠ p) :
    (p :: ps).isPrefixOf (c :: w) = false := by
  rw [List.isPrefixOf_cons₂]
  simp only [Bool.and_eq_false_iff]
  left
  exact beq_eq_false_iff_ne.mpr (fun hpc => h hpc.symm)

/-- Replacement walks over characters that cannot start a match. -/
theorem replAux_append_of_ne (x z : List Char) (p : Char) (ps rep : List Char)
    (hx : ∀ c ∈ x, c ≠ p) :
    replAux (x ++ z) p ps rep = x ++ replAux z p ps rep := by
  induction x with
  | nil => simp
  | cons c x' ih =>
    have hc : c ≠ p := hx c (by simp)
    rw [List.cons_append, replAux_cons, isPrefixOf_cons_of_ne _ _ hc]
    simp only [Bool.false_eq_true, if_false, List.cons_append, List.cons.injEq, true_and]
    exact ih (fun d hd => hx d (by simp [hd]))

/-- Replacement fires on a match at the head. -/
theorem replAux_head (t : List Char) (p : Char) (ps rep : List Char) :
    replAux ((p :: ps) ++ t) p ps rep = rep ++ replAux t p ps rep := by
  rw [List.cons_append, replAux_cons]
  have hpre : (p :: ps).isPrefixOf (p :: (ps ++ t)) = true := by
    have := isPrefixOf_append_self (p :: ps) t
    simpa using this
  rw [hpre]
  simp only [if_true, List.drop_left]

/-- The empty pattern occurs in every string. -/
theorem containsSub_nil_pat (s : List Char) : containsSub s [] = true := by
  cases s <;> simp [containsSub]

/-- Unfolding of `containsSub` on a non-empty string. -/
theorem containsSub_cons (c : Char) (tl pat : List Char) :
    containsSub (c :: tl) pat = (pat.isPrefixOf (c :: tl) || containsSub tl pat) := rfl

/-- A replacement pass with a pattern that does not occur is the identity. -/
theorem replAux_of_not_contains (s : List Char) (p : Char) (ps rep : List Char)
    (h : containsSub s (p :: ps) = false) :
    replAux s p ps rep = s := by
  induction s with
  | nil => rfl
  | cons c tl ih =>
    rw [containsSub_cons, Bool.or_eq_false_iff] at h
    rw [replAux_cons, h.1]
    simp only [Bool.false_eq_true, if_false, List.cons.injEq, true_and]
    exact ih h.2

/-- A pattern that occurs in neither part and cannot start inside the left
part does not occur in the concatenation. -/
theorem containsSub_append_of_ne (x w : List Char) (p : Char) (ps : List Char)
    (hx : ∀ c ∈ x, c ≠ p) (hw : containsSub w (p :: ps) = false) :
    containsSub (x ++ w) (p :: ps) = false := by
  induction x with
  | nil => simpa using hw
  | cons c x' ih =>
    rw [List.cons_append, containsSub_cons, Bool.or_eq_false_iff]
    exact ⟨isPrefixOf_cons_of_ne _ _ (hx c (by simp)),
      ih (fun d hd => hx d (by simp [hd]))⟩

/-- `unmask_text` is the identity when no mapping key occurs in the text. -/
theorem unmask_text_of_no_keys (s : List Char) (m : List (List Char × List Char))
    (h : ∀ pr ∈ m, containsSub s pr.1 = false) :
    unmask_text s m = s := by
  induction m with
  | nil => rfl
  | cons kv m' ih =>
    have h0 := h kv (by simp)
    have hstep : pyReplace s kv.1 kv.2 = s := by
      match hk : kv.1 with
      | [] =>
        rw [hk] at h0
        rw [containsSub_nil_pat] at h0
        exact absurd h0 (by simp)
      | p :: ps =>
        rw [hk] at h0
        exact replAux_of_not_contains s p ps kv.2 h0
    show unmask_text (pyReplace s kv.1 kv.2) m' = s
    rw [hstep]
    exact ih (fun pr hpr => h pr (by simp [hpr]))

/-- C5 (counterexample): as stated, the claim's idempotence fails on the
code: with mapping `{"[A_1]": "[A_1][A_1]"}` — a value that reintroduces the
key — a second application of `unmask_text` to the already-restored text
changes it again. -/
theorem c5_counterexample :
    unmask_text (unmask_text (sl "[A_1]") [(sl "[A_1]", sl "[A_1][A_1]")])
        [(sl "[A_1]", sl "[A_1][A_1]")] ≠
      unmask_text (sl "[A_1]") [(sl "[A_1]", sl "[A_1][A_1]")] := by decide

/-- C5 (amended): `unmask_text` is the identity on the empty mapping; one
replacement pass substitutes the value for an occurrence of the key and
continues behind it (so every occurrence is replaced left to right); and it
is idempotent provided no mapping key still occurs in the once-restored
text — which the mapping of the counterexample above violates. -/
theorem c5_unmask_properties :
    (∀ t : List Char, unmask_text t [] = t) ∧
    (∀ (p : Char) (ps v x y : List Char), (∀ c ∈ x, c ≠ p) →
      unmask_text (x ++ (p :: ps) ++ y) [(p :: ps, v)] =
        x ++ v ++ unmask_text y [(p :: ps, v)]) ∧
    (∀ (t : List Char) (m : List (List Char × List Char)),
      (∀ pr ∈ m, containsSub (unmask_text t m) pr.1 = false) →
      unmask_text (unmask_text t m) m = unmask_text t m) := by
  refine ⟨fun t => rfl, ?_, ?_⟩
  · intro p ps v x y hx
    show pyReplace (x ++ (p :: ps) ++ y) (p :: ps) v = x ++ v ++ pyReplace y (p :: ps) v
    show replAux (x ++ (p :: ps) ++ y) p ps v = x ++ v ++ replAux y p ps v
    rw [List.append_assoc, replAux_append_of_ne _ _ _ _ _ hx, replAux_head,
      List.append_assoc]
  · intro t m h
    exact unmask_text_of_no_keys _ _ h

/-- C5 (witness): the amended properties at concrete inputs. -/
theorem c5_witness :
    unmask_text (sl "Kontakt: ") [] = sl "Kontakt: " ∧
    unmask_text ((sl "Kontakt: ") ++ ('[' :: sl "PERSON_1]") ++ (sl "!"))
        [('[' :: sl "PERSON_1]", sl "Hans")] =
      (sl "Kontakt: ") ++ (sl "Hans") ++
        unmask_text (sl "!") [('[' :: sl "PERSON_1]", sl "Hans")] ∧
    unmask_text (unmask_text (sl "Hi [A_1]") [(sl "[A_1]", sl "Hans")])
        [(sl "[A_1]", sl "Hans")] =
      unmask_text (sl "Hi [A_1]") [(sl "[A_1]", sl "Hans")] :=
  ⟨c5_unmask_properties.1 _,
   c5_unmask_properties.2.1 '[' (sl "PERSON_1]") (sl "Hans") (sl "Kontakt: ")
     (sl "!") (by decide),
   c5_unmask_properties.2.2 (sl "Hi [A_1]") [(sl "[A_1]", sl "Hans")] (by decide)⟩

/-! ## Lemma library: URL extraction -/

/-- Occurrence is preserved by prepending text. -/
theorem containsSub_append_left (x w u : List Char) (h : containsSub w u = true) :
    containsSub (x ++ w) u = true := by
  induction x with
  | nil => simpa using h
  | cons c x' ih =>
    rw [List.cons_append, containsSub_cons]
    simp [ih]

/-- A list occurs in itself followed by anything. -/
theorem containsSub_self_append (u w : List Char) : containsSub (u ++ w) u = true := by
  match u with
  | [] => exact containsSub_nil_pat w
  | c :: cs =>
    rw [List.cons_append, containsSub_cons]
    have h : (c :: cs).isPrefixOf (c :: (cs ++ w)) = true := by
      rw [← List.cons_append]
      exact isPrefixOf_append_self _ _
    simp [h]

/-- Lists all of whose elements satisfy `p` are unchanged by `takeWhile p`. -/
theorem takeWhile_eq_self_of_all (l : List Char) (p : Char → Bool)
    (h : ∀ c ∈ l, p c = true) : l.takeWhile p = l := by
  induction l with
  | nil => rfl
  | cons c tl ih =>
    rw [List.takeWhile_cons, h c (by simp)]
    simp only [if_true, List.cons.injEq, true_and]
    exact ih (fun d hd => h d (by simp [hd]))

/-- Lists all of whose elements satisfy `p` are emptied by `dropWhile p`. -/
theorem dropWhile_eq_nil_of_all (l : List Char) (p : Char → Bool)
    (h : ∀ c ∈ l, p c = true) : l.dropWhile p = [] :=
  List.dropWhile_eq_nil_iff.mpr h

/-- Every character produced by `takeWhile p` satisfies `p`. -/
theorem mem_takeWhile_sat (l : List Char) (p : Char → Bool) (c : Char)
    (h : c ∈ l.takeWhile p) : p c = true := by
  induction l with
  | nil => simp [List.takeWhile] at h
  | cons d tl ih =>
    rw [List.takeWhile_cons] at h
    by_cases hd : p d = true
    · rw [hd] at h
      simp only [if_true, List.mem_cons] at h
      rcases h with h | h
      · rwa [h]
      · exact ih h
    · rw [Bool.not_eq_true] at hd
      rw [hd] at h
      simp at h

/-- What the URL matcher returns is itself a full URL token. -/
theorem matchUrl_isUrlToken {s : List Char} {x : List Char × List Char}
    (h : matchUrl s = some x) : isUrlToken x.1 = true := by
  unfold matchUrl at h
  split at h
  · rename_i h8
    unfold matchUrlAfter at h
    split at h
    · exact absurd h (by simp)
    · rename_i hrun
      cases h
      have hall : ∀ c ∈ (s.drop (sl "https://").length).takeWhile isUrlChar,
          isUrlChar c = true := fun c hc => mem_takeWhile_sat _ _ c hc
      simp only [isUrlToken, matchUrl, isPrefixOf_append_self, if_true]
      unfold matchUrlAfter
      rw [List.drop_left, takeWhile_eq_self_of_all _ _ hall,
        dropWhile_eq_nil_of_all _ _ hall]
      simp only [List.isEmpty_iff] at hrun ⊢
      rw [if_neg hrun]
      simp
  · split at h
    · rename_i h8 h7
      unfold matchUrlAfter at h
      split at h
      · exact absurd h (by simp)
      · rename_i hrun
        cases h
        have hall : ∀ c ∈ (s.drop (sl "http://").length).takeWhile isUrlChar,
            isUrlChar c = true := fun c hc => mem_takeWhile_sat _ _ c hc
        have h8' : (sl "https://").isPrefixOf
            ((sl "http://") ++ (s.drop (sl "http://").length).takeWhile isUrlChar) = false := by
          show (sl "https://").isPrefixOf
            ('h' :: 't' :: 't' :: 'p' :: ':' :: '/' :: '/' ::
              (s.drop (sl "http://").length).takeWhile isUrlChar) = false
          show ('h' :: 't' :: 't' :: 'p' :: 's' :: ':' :: '/' :: '/' :: []).isPrefixOf
            ('h' :: 't' :: 't' :: 'p' :: ':' :: '/' :: '/' ::
              (s.drop (sl "http://").length).takeWhile isUrlChar) = false
          simp [List.isPrefixOf_cons₂]
        simp only [isUrlToken, matchUrl, h8', Bool.false_eq_true, if_false,
          isPrefixOf_append_self, if_true]
        unfold matchUrlAfter
        rw [List.drop_left, takeWhile_eq_self_of_all _ _ hall,
          dropWhile_eq_nil_of_all _ _ hall]
        simp only [List.isEmpty_iff] at hrun ⊢
        rw [if_neg hrun]
        simp
    · exact absurd h (by simp)

/-- Soundness of the URL scan, for any fuel: every reported match is a full
URL token occurring in the scanned text. -/
theorem findAllUrlsFuel_sound :
    ∀ (f : Nat) (s : List Char), ∀ u ∈ findAllUrlsFuel f s,
      isUrlToken u = true ∧ containsSub s u = true := by
  intro f
  induction f with
  | zero => intro s u hu; simp [findAllUrlsFuel] at hu
  | succ f ih =>
    intro s u hu
    simp only [findAllUrlsFuel] at hu
    split at hu
    · rename_i u0 rest hm
      obtain ⟨hd, _⟩ := matchUrl_decomp hm
      simp only [List.mem_cons] at hu
      rcases hu with hu | hu
      · subst hu
        refine ⟨matchUrl_isUrlToken hm, ?_⟩
        rw [← hd]
        exact containsSub_self_append _ _
      · obtain ⟨ht, hc⟩ := ih rest u hu
        refine ⟨ht, ?_⟩
        rw [← hd]
        exact containsSub_append_left _ _ _ hc
    · cases s with
      | nil => simp at hu
      | cons c tl =>
        obtain ⟨ht, hc⟩ := ih tl u hu
        refine ⟨ht, ?_⟩
        rw [containsSub_cons]
        simp [hc]

/-- `dedupFirst` preserves membership (auxiliary, generalized over the
accumulator). -/
theorem dedupFirst_aux_mem (l : List (List Char)) :
    ∀ (acc : List (List Char)) (u : List Char),
      u ∈ l.foldl (fun acc u => if u ∈ acc then acc else acc ++ [u]) acc ↔
        u ∈ acc ∨ u ∈ l := by
  induction l with
  | nil => intro acc u; simp
  | cons x l' ih =>
    intro acc u
    simp only [List.foldl_cons, List.mem_cons]
    rw [ih]
    by_cases hx : x ∈ acc
    · simp only [hx, if_true]
      constructor
      · rintro (h | h)
        · exact Or.inl h
        · exact Or.inr (Or.inr h)
      · rintro (h | h | h)
        · exact Or.inl h
        · exact Or.inl (h ▸ hx)
        · exact Or.inr h
    · simp only [hx, if_false, List.mem_append, List.mem_singleton]
      tauto

/-- `dedupFirst` produces no duplicates (auxiliary). -/
theorem dedupFirst_aux_nodup (l : List (List Char)) :
    ∀ acc : List (List Char), acc.Nodup →
      (l.foldl (fun acc u => if u ∈ acc then acc else acc ++ [u]) acc).Nodup := by
  induction l with
  | nil => intro acc h; simpa using h
  | cons x l' ih =>
    intro acc hacc
    simp only [List.foldl_cons]
    by_cases hx : x ∈ acc
    · simp only [hx, if_true]
      exact ih acc hacc
    · simp only [hx, if_false]
      refine ih _ ?_
      simp [List.nodup_append, hacc, hx]

/-- C10 (counterexample): the claim's completeness direction fails: in the
response `"https://ab"`, the substring `"https://a"` is URL-shaped and
occurs, yet it is not an element of `sources` — the scan is greedy, so a
URL-shaped substring overlapping a longer match is not separately
represented. -/
theorem c10_counterexample :
    isUrlToken (sl "https://a") = true ∧
    containsSub (sl "https://ab") (sl "https://a") = true ∧
    sl "https://a" ∉ extract_sources (sl "https://ab") := by decide

/-- C10 (amended): `sources` is the deduplication of the leftmost
non-overlapping greedy matches of the URL pattern: it has no duplicate
elements and every element is a full URL token occurring in the response
text; URL-shaped substrings merely overlapping a longer match are not
separately represented. -/
theorem c10_sources_sound (t : List Char) :
    (extract_sources t).Nodup ∧
    ∀ u ∈ extract_sources t, isUrlToken u = true ∧ containsSub t u = true := by
  constructor
  · exact dedupFirst_aux_nodup _ [] List.nodup_nil
  · intro u hu
    have : u ∈ findAllUrls t := by
      have := (dedupFirst_aux_mem _ [] u).mp hu
      simpa using this
    exact findAllUrlsFuel_sound _ _ u this

/-- C10 (witness): the amended theorem evaluated on a concrete response. -/
theorem c10_witness :
    (extract_sources (sl "see https://a.b/c and (http://d.e)")).Nodup ∧
    (isUrlToken (sl "https://a.b/c") = true ∧
      containsSub (sl "see https://a.b/c and (http://d.e)") (sl "https://a.b/c") = true) :=
  ⟨(c10_sources_sound (sl "see https://a.b/c and (http://d.e)")).1,
   (c10_sources_sound (sl "see https://a.b/c and (http://d.e)")).2
     (sl "https://a.b/c") (by decide)⟩

/-! ## Lemma library: the recovery fold -/

/-- Every pair of `dinsert d k v` is an old pair or the inserted pair. -/
theorem mem_dinsert (d : List (JValue × JValue)) (k v : JValue) :
    ∀ q ∈ dinsert d k v, q ∈ d ∨ q = (k, v) := by
  intro q hq
  unfold dinsert at hq
  split at hq
  · obtain ⟨p, hp, hq⟩ := List.mem_map.mp hq
    by_cases h : jeq p.1 k = true
    · rw [if_pos h] at hq
      exact Or.inr hq.symm
    · rw [if_neg h] at hq
      exact Or.inl (hq ▸ hp)
  · rcases List.mem_append.mp hq with h | h
    · exact Or.inl h
    · exact Or.inr (by simpa using h)

/-- Every entity stored by `deAppend de cat e` is `e` or was already
stored. -/
theorem mem_deAppend (de : List (JValue × List EntityRec)) (cat : JValue) (e : EntityRec) :
    ∀ p ∈ deAppend de cat e, ∀ x ∈ p.2, x = e ∨ ∃ p' ∈ de, x ∈ p'.2 := by
  intro p hp x hx
  unfold deAppend at hp
  split at hp
  · obtain ⟨p', hp', hpe⟩ := List.mem_map.mp hp
    by_cases h : jeq p'.1 cat = true
    · rw [if_pos h] at hpe
      subst hpe
      simp only [List.mem_append, List.mem_singleton] at hx
      rcases hx with hx | hx
      · exact Or.inr ⟨p', hp', hx⟩
      · exact Or.inl hx
    · rw [if_neg h] at hpe
      exact Or.inr ⟨p', hp', hpe ▸ hx⟩
  · rcases List.mem_append.mp hp with h | h
    · exact Or.inr ⟨p, h, hx⟩
    · have : p = (cat, [e]) := by simpa using h
      subst this
      simp only [List.mem_singleton] at hx
      exact Or.inl hx

/-- Case analysis of the entities stored by one recovery step: every stored
entity is the freshly synthesized one or was already stored. -/
theorem recStep_mem_fst (acc : List (JValue × List EntityRec) × List (JValue × JValue))
    (pr : List Char × List Char) :
    ∀ p ∈ (recStep acc pr).1, ∀ e ∈ p.2,
      (e.original = .str (sentinelOf pr.1 pr.2) ∧ e.masked = .str (phToken pr.1 pr.2) ∧
        e.confidence = .num ((4 : ℚ) / 5)) ∨ ∃ p' ∈ acc.1, e ∈ p'.2 := by
  intro p hp e he
  have hde0 : ∀ p' ∈ (if acc.1.any (fun q => jeq q.1 (.str pr.1)) then acc.1
      else acc.1 ++ [(JValue.str pr.1, [])]), ∀ e' ∈ p'.2, ∃ p'' ∈ acc.1, e' ∈ p''.2 := by
    split
    · exact fun p' hp' e' he' => ⟨p', hp', he'⟩
    · intro p' hp' e' he'
      rcases List.mem_append.mp hp' with h | h
      · exact ⟨p', h, he'⟩
      · have : p' = (JValue.str pr.1, []) := by simpa using h
        subst this
        simp at he'
  unfold recStep at hp
  simp only at hp
  by_cases hg : (((jdeGet (if acc.1.any (fun q => jeq q.1 (.str pr.1)) then acc.1
      else acc.1 ++ [(JValue.str pr.1, [])]) (JValue.str pr.1)).getD []).any
        (fun e => jeq e.masked (JValue.str (phToken pr.1 pr.2)))) = true
  · rw [if_pos hg] at hp
    exact Or.inr (hde0 p hp e he)
  · rw [if_neg hg] at hp
    rcases mem_deAppend _ _ _ p hp e he with h | ⟨p', hp', he'⟩
    · subst h
      exact Or.inl ⟨rfl, rfl, rfl⟩
    · exact Or.inr (hde0 p' hp' e he')

/-- Case analysis of the mapping built by one recovery step: every pair is
the freshly synthesized placeholder/sentinel pair or was already present. -/
theorem recStep_mem_snd (acc : List (JValue × List EntityRec) × List (JValue × JValue))
    (pr : List Char × List Char) :
    ∀ q ∈ (recStep acc pr).2, q ∈ acc.2 ∨
      q = (JValue.str (phToken pr.1 pr.2), JValue.str (sentinelOf pr.1 pr.2)) := by
  intro q hq
  unfold recStep at hq
  simp only at hq
  by_cases hg : (((jdeGet (if acc.1.any (fun q => jeq q.1 (.str pr.1)) then acc.1
      else acc.1 ++ [(JValue.str pr.1, [])]) (JValue.str pr.1)).getD []).any
        (fun e => jeq e.masked (JValue.str (phToken pr.1 pr.2)))) = true
  · rw [if_pos hg] at hq
    exact Or.inl hq
  · rw [if_neg hg] at hq
    exact mem_dinsert _ _ _ q hq

/-- Invariant of the recovery fold: every stored entity and every mapping
pair is synthesized from a placeholder of the scanned list — confidence 0.8,
masked field the bracketed token, original field its sentinel. -/
theorem recFold_inv (P : List Char → List Char → Prop) :
    ∀ (l : List (List Char × List Char)), (∀ pr ∈ l, P pr.1 pr.2) →
    ∀ acc : List (JValue × List EntityRec) × List (JValue × JValue),
      (∀ p ∈ acc.1, ∀ e ∈ p.2, ∃ c n, P c n ∧
        e.original = .str (sentinelOf c n) ∧ e.masked = .str (phToken c n) ∧
        e.confidence = .num ((4 : ℚ) / 5)) →
      (∀ q ∈ acc.2, ∃ c n, P c n ∧
        q.1 = .str (phToken c n) ∧ q.2 = .str (sentinelOf c n)) →
      (∀ p ∈ (l.foldl recStep acc).1, ∀ e ∈ p.2, ∃ c n, P c n ∧
        e.original = .str (sentinelOf c n) ∧ e.masked = .str (phToken c n) ∧
        e.confidence = .num ((4 : ℚ) / 5)) ∧
      (∀ q ∈ (l.foldl recStep acc).2, ∃ c n, P c n ∧
        q.1 = .str (phToken c n) ∧ q.2 = .str (sentinelOf c n)) := by
  intro l
  induction l with
  | nil => intro _ acc h1 h2; exact ⟨h1, h2⟩
  | cons pr l' ih =>
    intro hl acc h1 h2
    simp only [List.foldl_cons]
    have hP : P pr.1 pr.2 := hl pr (by simp)
    have hl' : ∀ q ∈ l', P q.1 q.2 := fun q hq => hl q (by simp [hq])
    apply ih hl'
    · intro p hp e he
      rcases recStep_mem_fst acc pr p hp e he with ⟨h1', h2', h3'⟩ | ⟨p', hp', he'⟩
      · exact ⟨pr.1, pr.2, hP, h1', h2', h3'⟩
      · exact h1 p' hp' e he'
    · intro q hq
      rcases recStep_mem_snd acc pr q hq with h | h
      · exact h2 q h
      · subst h
        exact ⟨pr.1, pr.2, hP, rfl, rfl⟩

/-- C1 (counterexample): a received response that parses as JSON but is
structurally invalid raises instead of degrading: the payload
`{"entities": [{"original": "a"}]}` lists an entity without the required
`masked` field, and `analyze_and_mask` re-raises the resulting `KeyError`
as `Exception("Masking failed: ...")` rather than returning a
`MaskingResult`. -/
theorem c1_counterexample :
    analyze_and_mask (sl "x")
        (some (.obj [(sl "entities", .arr [.obj [(sl "original", .str (sl "a"))]])]))
        (sl "\x7b\"entities\": [\x7b\"original\": \"a\"\x7d]\x7d") =
      Except.error PyErr.keyError := rfl

/-- C1 (amended): when the upstream response is received but fails to parse
as JSON (non-JSON or truncated), `analyze_and_mask` never raises — the
recovery chain is total and returns a (possibly degraded) `MaskingResult`.
A response that parses but is structurally invalid (e.g. an entity object
missing a required field) raises a hard error instead (see the
counterexample), as does a failure of the upstream call itself. -/
theorem c1_no_raise_on_parse_failure (text payload : List Char) :
    ∃ r : MaskingResult, analyze_and_mask text none payload = Except.ok r :=
  ⟨recoverFromRaw text payload, rfl⟩

/-- C2: on JSON parse failure `analyze_and_mask` returns, without throwing,
a result with confidence at most 0.7: if a `masked_text` value is
salvageable, it becomes the masked text, overall confidence is exactly 0.7
and every synthesized entity carries confidence exactly 0.8, a placeholder
token as its masked value and the sentinel `<category_n>` (not real data)
as its original, the mapping likewise; if nothing is salvageable, the
masked text is the unmodified input, the mapping is empty and confidence is
0.0. -/
theorem c2_parse_failure_degraded (text payload : List Char) :
    ∃ r, analyze_and_mask text none payload = Except.ok r ∧
      (r.confidence = .num ((7 : ℚ) / 10) ∨ r.confidence = .num 0) ∧
      (∀ m, findMaskedText payload = some m →
        r.masked_text = .str m ∧ r.confidence = .num ((7 : ℚ) / 10) ∧
        (∀ p ∈ r.detected_entities, ∀ e ∈ p.2, ∃ c n,
          e.original = .str (sentinelOf c n) ∧ e.masked = .str (phToken c n) ∧
          e.confidence = .num ((4 : ℚ) / 5)) ∧
        (∀ q ∈ r.mask_mapping, ∃ c n,
          q.1 = .str (phToken c n) ∧ q.2 = .str (sentinelOf c n))) ∧
      (findMaskedText payload = none →
        r.masked_text = .str text ∧ r.mask_mapping = [] ∧ r.confidence = .num 0) := by
  refine ⟨recoverFromRaw text payload, rfl, ?_⟩
  unfold recoverFromRaw
  cases h : findMaskedText payload with
  | some m =>
    have hinv := recFold_inv (fun _ _ => True) (findAllPh m) (fun _ _ => trivial)
      ([], []) (by simp) (by simp)
    refine ⟨Or.inl rfl, ?_, ?_⟩
    · intro m' hm'
      injection hm' with hmm
      subst hmm
      refine ⟨rfl, rfl, ?_, ?_⟩
      · intro p hp e he
        obtain ⟨c, n, _, h1, h2, h3⟩ := hinv.1 p hp e he
        exact ⟨c, n, h1, h2, h3⟩
      · intro q hq
        obtain ⟨c, n, _, h1, h2⟩ := hinv.2 q hq
        exact ⟨c, n, h1, h2⟩
    · intro hn
      exact absurd hn (by simp)
  | none =>
    refine ⟨Or.inr rfl, ?_, fun _ => ⟨rfl, rfl, rfl⟩⟩
    intro m' hm'
    exact absurd hm' (by simp)

/-- C2 (witness): the theorem evaluated at a truncated-JSON payload (the
salvage branch) and at a hopeless payload (the passthrough branch). -/
theorem c2_witness :
    (∃ r, analyze_and_mask (sl "t") none (sl "\x7b\"masked_text\": \"Hi [PERSON_1]") =
        Except.ok r ∧
      r.masked_text = .str (sl "Hi [PERSON_1]") ∧ r.confidence = .num ((7 : ℚ) / 10)) ∧
    (∃ r, analyze_and_mask (sl "t") none (sl "garbage") = Except.ok r ∧
      r.masked_text = .str (sl "t") ∧ r.mask_mapping = [] ∧ r.confidence = .num 0) := by
  constructor
  · obtain ⟨r, hok, _, hsal, _⟩ :=
      c2_parse_failure_degraded (sl "t") (sl "\x7b\"masked_text\": \"Hi [PERSON_1]")
    have hs := hsal (sl "Hi [PERSON_1]") (by decide)
    exact ⟨r, hok, hs.1, hs.2.1⟩
  · obtain ⟨r, hok, _, _, hns⟩ := c2_parse_failure_degraded (sl "t") (sl "garbage")
    have hn := hns (by decide)
    exact ⟨r, hok, hn.1, hn.2.1, hn.2.2⟩

/-! ## Lemma library: the success path on well-formed payloads -/

/-- One loop iteration on a well-formed entity: no error, one mapping
insertion, one detected-entities append. -/
theorem entStep_entObj (acc : List (JValue × JValue) × List (JValue × List EntityRec))
    (t : List Char × List Char × List Char) :
    entStep acc (entObj t) = Except.ok
      (dinsert acc.1 (.str t.2.1) (.str t.1),
       deAppend acc.2 (.str t.2.2)
         { original := .str t.1, masked := .str t.2.1, confidence := .num ((9 : ℚ) / 10) }) :=
  rfl

/-- The whole entity loop on a well-formed list, generalized over the
accumulator. -/
theorem foldlM_entObj (ts : List (List Char × List Char × List Char)) :
    ∀ acc : List (JValue × JValue) × List (JValue × List EntityRec),
      (ts.map entObj).foldlM entStep acc = Except.ok
        (ts.foldl (fun mm t => dinsert mm (.str t.2.1) (.str t.1)) acc.1,
         ts.foldl
           (fun de t => deAppend de (.str t.2.2)
             { original := .str t.1, masked := .str t.2.1,
               confidence := .num ((9 : ℚ) / 10) }) acc.2) := by
  induction ts with
  | nil => intro acc; rfl
  | cons t ts' ih =>
    intro acc
    rw [List.map_cons, List.foldlM_cons, entStep_entObj]
    simp only [List.foldl_cons]
    exact ih _

/-- C7 (counterexample): an upstream entity list that mentions the same
original value twice under two distinct placeholders passes through
unchanged: on input `"Hans Hans"` (the same original twice), the mapping
receives two placeholder keys for the one value and
`detected_entities["PERSON"]` receives two entries — not one. -/
theorem c7_counterexample :
    ∃ r, analyze_and_mask (sl "Hans Hans")
        (some (payloadObj (sl "[PERSON_1] [PERSON_2]")
          [(sl "Hans", sl "[PERSON_1]", sl "PERSON"),
           (sl "Hans", sl "[PERSON_2]", sl "PERSON")]))
        (sl "") = Except.ok r ∧
      r.mask_mapping =
        [(.str (sl "[PERSON_1]"), .str (sl "Hans")),
         (.str (sl "[PERSON_2]"), .str (sl "Hans"))] ∧
      jdeGet r.detected_entities (.str (sl "PERSON")) = some
        [{ original := .str (sl "Hans"), masked := .str (sl "[PERSON_1]"),
           confidence := .num ((9 : ℚ) / 10) },
         { original := .str (sl "Hans"), masked := .str (sl "[PERSON_2]"),
           confidence := .num ((9 : ℚ) / 10) }] ∧
      containsSub (sl "Hans Hans") (sl "Hans") = true := by
  refine ⟨_, rfl, ?_, ?_, ?_⟩
  · rfl
  · rfl
  · decide

/-- The success path on a well-formed payload: the entity list passes
through verbatim into the mapping and the detected-entities dict. -/
theorem analyze_payloadObj_eq (text mt payload : List Char)
    (ts : List (List Char × List Char × List Char)) :
    analyze_and_mask text (some (payloadObj mt ts)) payload = Except.ok
      { original_text := text
        masked_text := .str mt
        detected_entities := deOf ts
        mask_mapping := mmOf ts
        confidence := .num ((9 : ℚ) / 10) } := by
  have h0 : analyze_and_mask text (some (payloadObj mt ts)) payload =
      Except.bind ((ts.map entObj).foldlM entStep ([], []))
        (fun md => Except.ok
          { original_text := text
            masked_text := .str mt
            detected_entities := md.2
            mask_mapping := md.1
            confidence := .num ((9 : ℚ) / 10) }) := rfl
  rw [h0, foldlM_entObj ts ([], [])]
  rfl

/-- C7 (amended): the success path performs no deduplication at all — it
passes the upstream entity list through verbatim, one dict insertion into
`mask_mapping` and one appended `detected_entities` entry per listed
entity, in list order.  Identical originals therefore map to one placeholder
only when the upstream response already assigns them one; nothing is merged
by the code. -/
theorem c7_entities_passthrough (text mt payload : List Char)
    (ts : List (List Char × List Char × List Char)) :
    analyze_and_mask text (some (payloadObj mt ts)) payload = Except.ok
      { original_text := text
        masked_text := .str mt
        detected_entities := deOf ts
        mask_mapping := mmOf ts
        confidence := .num ((9 : ℚ) / 10) } :=
  analyze_payloadObj_eq text mt payload ts


/-- C9: if the upstream response parses as an object with no `masked_text`
field, the original input text itself is returned as `masked_text`, and
`confidence` defaults to 0.9 when `overall_confidence` is absent, while
`mask_mapping` and `detected_entities` are still built from whatever
entities the payload lists — so unmasked original text can be returned
labeled as masked with high confidence. -/
theorem c9_no_masked_text_defaults :
    (∀ (text payload : List Char) (fs : List (List Char × JValue)) (r : MaskingResult),
      jget fs (sl "masked_text") = none →
      jget fs (sl "overall_confidence") = none →
      analyze_and_mask text (some (.obj fs)) payload = Except.ok r →
      r.masked_text = .str text ∧ r.confidence = .num ((9 : ℚ) / 10)) ∧
    (∀ (text payload : List Char) (ts : List (List Char × List Char × List Char)),
      analyze_and_mask text (some (.obj [(sl "entities", .arr (ts.map entObj))])) payload =
        Except.ok
          { original_text := text
            masked_text := .str text
            detected_entities := deOf ts
            mask_mapping := mmOf ts
            confidence := .num ((9 : ℚ) / 10) }) := by
  constructor
  · intro text payload fs r hmt hoc hok
    have hok' : Except.bind (iterElems ((jget fs (sl "entities")).getD (.arr [])))
        (fun elems => Except.bind (elems.foldlM entStep ([], []))
          (fun md => Except.ok
            { original_text := text
              masked_text := (jget fs (sl "masked_text")).getD (.str text)
              detected_entities := md.2
              mask_mapping := md.1
              confidence := (jget fs (sl "overall_confidence")).getD
                (.num ((9 : ℚ) / 10)) })) =
        Except.ok r := hok
    cases hel : iterElems ((jget fs (sl "entities")).getD (.arr [])) with
    | error e =>
      rw [hel] at hok'
      exact absurd hok' (by simp [Except.bind])
    | ok elems =>
      rw [hel] at hok'
      simp only [Except.bind] at hok'
      cases hfold : elems.foldlM entStep ([], []) with
      | error e =>
        rw [hfold] at hok'
        exact absurd hok' (by simp [Except.bind])
      | ok md =>
        rw [hfold] at hok'
        simp only [Except.bind] at hok'
        cases hok'
        constructor
        · show (jget fs (sl "masked_text")).getD (.str text) = .str text
          rw [hmt]
          rfl
        · show (jget fs (sl "overall_confidence")).getD (.num ((9 : ℚ) / 10)) =
            .num ((9 : ℚ) / 10)
          rw [hoc]
          rfl
  · intro text payload ts
    have h0 : analyze_and_mask text
        (some (.obj [(sl "entities", .arr (ts.map entObj))])) payload =
        Except.bind ((ts.map entObj).foldlM entStep ([], []))
          (fun md => Except.ok
            { original_text := text
              masked_text := .str text
              detected_entities := md.2
              mask_mapping := md.1
              confidence := .num ((9 : ℚ) / 10) }) := rfl
    rw [h0, foldlM_entObj ts ([], [])]
    rfl

/-- C9 (witness): a payload listing one entity but no `masked_text` and no
`overall_confidence`: the input text comes back as `masked_text` at
confidence 0.9. -/
theorem c9_witness :
    ∃ r : MaskingResult,
      analyze_and_mask (sl "secret text")
        (some (.obj [(sl "entities",
          .arr [entObj (sl "Hans", sl "[PERSON_1]", sl "PERSON")])])) (sl "") =
        Except.ok r ∧
      r.masked_text = .str (sl "secret text") ∧ r.confidence = .num ((9 : ℚ) / 10) := by
  refine ⟨{ original_text := sl "secret text"
            masked_text := .str (sl "secret text")
            detected_entities := deOf [(sl "Hans", sl "[PERSON_1]", sl "PERSON")]
            mask_mapping := mmOf [(sl "Hans", sl "[PERSON_1]", sl "PERSON")]
            confidence := .num ((9 : ℚ) / 10) }, rfl, ?_⟩
  exact c9_no_masked_text_defaults.1 (sl "secret text") (sl "")
    [(sl "entities", .arr [entObj (sl "Hans", sl "[PERSON_1]", sl "PERSON")])] _ rfl rfl rfl

/-! ## Lemma library: placeholder shape facts -/

/-- Digits are outside the `[A-Z_]` class. -/
theorem isPhClassChar_eq_false_of_digit (c : Char) (h : c.isDigit = true) :
    isPhClassChar c = false := by
  simp only [Char.isDigit, Bool.and_eq_true, decide_eq_true_eq] at h
  simp only [isPhClassChar, Char.isUpper, Bool.or_eq_false_iff, Bool.and_eq_false_iff]
  refine ⟨Or.inl ?_, ?_⟩
  · simp only [decide_eq_false_iff_not]
    intro h65
    have h1 := UInt32.le_def.mp h65
    have h2 := UInt32.le_def.mp h.2
    rw [BitVec.le_def] at h1 h2
    have e1 : ((65 : UInt32)).toBitVec.toNat = 65 := rfl
    have e2 : ((57 : UInt32)).toBitVec.toNat = 57 := rfl
    omega
  · simp only [beq_eq_false_iff_ne]
    intro he
    subst he
    exact absurd h.2 (by decide)

/-- `takeWhile` passes over a block of satisfying characters. -/
theorem takeWhile_append_of_all (x y : List Char) (p : Char → Bool)
    (h : ∀ c ∈ x, p c = true) : (x ++ y).takeWhile p = x ++ y.takeWhile p := by
  induction x with
  | nil => simp
  | cons c x' ih =>
    rw [List.cons_append, List.takeWhile_cons, h c (by simp)]
    simp only [if_true, List.cons_append, List.cons.injEq, true_and]
    exact ih (fun d hd => h d (by simp [hd]))

/-- `dropWhile` drops a block of satisfying characters. -/
theorem dropWhile_append_of_all (x y : List Char) (p : Char → Bool)
    (h : ∀ c ∈ x, p c = true) : (x ++ y).dropWhile p = y.dropWhile p := by
  induction x with
  | nil => simp
  | cons c x' ih =>
    rw [List.cons_append, List.dropWhile_cons, h c (by simp)]
    simp only [if_true]
    exact ih (fun d hd => h d (by simp [hd]))

/-- Shape of a successful placeholder match: a non-empty `[A-Z_]` category
and a non-empty digit counter. -/
theorem matchPh_shape {s : List Char} {x : List Char × List Char × List Char}
    (h : matchPh s = some x) :
    x.1 ≠ [] ∧ (∀ ch ∈ x.1, isPhClassChar ch = true) ∧
    x.2.1 ≠ [] ∧ (∀ ch ∈ x.2.1, ch.isDigit = true) := by
  match s with
  | [] => simp [matchPh] at h
  | c :: r =>
    by_cases hc : c = '['
    · subst hc
      simp only [matchPh] at h
      split at h
      · rename_i hcond
        split at h
        · exact absurd h (by simp)
        · rename_i hds
          split at h
          · rename_i r4 heq
            cases h
            simp only [Bool.and_eq_true, beq_iff_eq, decide_eq_true_eq] at hcond
            refine ⟨?_, ?_, ?_, ?_⟩
            · show (r.takeWhile isPhClassChar).dropLast ≠ []
              intro hnil
              have hlen := List.length_dropLast (r.takeWhile isPhClassChar)
              rw [hnil] at hlen
              simp only [List.length_nil] at hlen
              omega
            · show ∀ ch ∈ (r.takeWhile isPhClassChar).dropLast, isPhClassChar ch = true
              intro ch hch
              exact mem_takeWhile_sat _ _ _ (List.mem_of_mem_dropLast hch)
            · show (r.dropWhile isPhClassChar).takeWhile Char.isDigit ≠ []
              intro hnil
              apply hds
              rw [hnil]
              rfl
            · show ∀ ch ∈ (r.dropWhile isPhClassChar).takeWhile Char.isDigit,
                ch.isDigit = true
              intro ch hch
              exact mem_takeWhile_sat _ _ _ hch
          · exact absurd h (by simp)
      · exact absurd h (by simp)
    · have hnone : matchPh (c :: r) = none := by
        unfold matchPh
        split
        · rename_i heq
          cases heq
          exact absurd rfl hc
        · rfl
      rw [hnone] at h
      exact absurd h (by simp)

/-- Shape of every placeholder reported by the scan, for any fuel. -/
theorem findAllPhFuel_shape :
    ∀ (f : Nat) (s : List Char), ∀ pr ∈ findAllPhFuel f s,
      pr.1 ≠ [] ∧ (∀ ch ∈ pr.1, isPhClassChar ch = true) ∧
      pr.2 ≠ [] ∧ (∀ ch ∈ pr.2, ch.isDigit = true) := by
  intro f
  induction f with
  | zero => intro s pr hpr; simp [findAllPhFuel] at hpr
  | succ f ih =>
    intro s pr hpr
    simp only [findAllPhFuel] at hpr
    split at hpr
    · rename_i cat ds rest hm
      simp only [List.mem_cons] at hpr
      rcases hpr with hpr | hpr
      · subst hpr
        exact matchPh_shape hm
      · exact ih rest pr hpr
    · cases s with
      | nil => simp at hpr
      | cons c tl => exact ih tl pr hpr

/-- Rebuilding the bracketed token from a well-shaped category and counter
yields exactly one full placeholder-grammar match. -/
theorem matchPh_phToken (c n : List Char) (hc : c ≠ [])
    (hcc : ∀ ch ∈ c, isPhClassChar ch = true) (hn : n ≠ [])
    (hnn : ∀ ch ∈ n, ch.isDigit = true) :
    matchPh (phToken c n) = some (c, n, []) := by
  have hrun : (c ++ '_' :: (n ++ [']'])).takeWhile isPhClassChar = c ++ ['_'] := by
    rw [takeWhile_append_of_all _ _ _ hcc, List.takeWhile_cons]
    have : isPhClassChar '_' = true := by decide
    rw [this]
    simp only [if_true]
    have htk : (n ++ [']']).takeWhile isPhClassChar = [] := by
      cases n with
      | nil => simp [List.takeWhile_cons]; decide
      | cons d n' =>
        rw [List.cons_append, List.takeWhile_cons,
          isPhClassChar_eq_false_of_digit d (hnn d (by simp))]
        simp
    rw [htk]
  have hdrop : (c ++ '_' :: (n ++ [']'])).dropWhile isPhClassChar = n ++ [']'] := by
    rw [dropWhile_append_of_all _ _ _ hcc, List.dropWhile_cons]
    have : isPhClassChar '_' = true := by decide
    rw [this]
    simp only [if_true]
    cases n with
    | nil => simp [List.dropWhile_cons]; decide
    | cons d n' =>
      rw [List.cons_append, List.dropWhile_cons,
        isPhClassChar_eq_false_of_digit d (hnn d (by simp))]
      simp
  have hds : (n ++ [']']).takeWhile Char.isDigit = n := by
    rw [takeWhile_append_of_all _ _ _ hnn]
    simp [List.takeWhile_cons]
  have hr3 : (n ++ [']']).dropWhile Char.isDigit = [']'] := by
    rw [dropWhile_append_of_all _ _ _ hnn]
    simp [List.dropWhile_cons]
  show matchPh ('[' :: (c ++ '_' :: (n ++ [']']))) = some (c, n, [])
  simp only [matchPh, hrun, hdrop, hds, hr3]
  have hcond : ((c ++ ['_']).getLast? == some '_' &&
      decide (2 ≤ (c ++ ['_']).length)) = true := by
    rw [List.getLast?_concat]
    simp only [beq_self_eq_true, Bool.true_and, decide_eq_true_eq, List.length_append,
      List.length_cons, List.length_nil]
    have := List.length_pos.mpr hc
    omega
  rw [hcond]
  simp only [if_true]
  have hne : n.isEmpty = false := by
    cases n with
    | nil => exact absurd rfl hn
    | cons d n' => rfl
  rw [hne]
  simp only [Bool.false_eq_true, if_false, List.dropLast_concat]

/-- Well-shaped rebuilt tokens satisfy the placeholder grammar. -/
theorem placeholderShaped_phToken (c n : List Char) (hc : c ≠ [])
    (hcc : ∀ ch ∈ c, isPhClassChar ch = true) (hn : n ≠ [])
    (hnn : ∀ ch ∈ n, ch.isDigit = true) :
    placeholderShaped (phToken c n) = true := by
  unfold placeholderShaped
  rw [matchPh_phToken c n hc hcc hn hnn]
  rfl

/-- Keys of the success-path mapping fold all come from the listed
entities (generalized over the accumulator). -/
theorem mmOf_keys_aux (ts : List (List Char × List Char × List Char)) :
    ∀ (acc : List (JValue × JValue)) (q : JValue × JValue),
      q ∈ ts.foldl (fun mm t => dinsert mm (.str t.2.1) (.str t.1)) acc →
      (∃ t ∈ ts, q.1 = .str t.2.1) ∨ q ∈ acc := by
  induction ts with
  | nil => intro acc q h; exact Or.inr h
  | cons t ts' ih =>
    intro acc q h
    simp only [List.foldl_cons] at h
    rcases ih _ q h with ⟨t', ht', he⟩ | h2
    · exact Or.inl ⟨t', by simp [ht'], he⟩
    · rcases mem_dinsert _ _ _ q h2 with h3 | h3
      · exact Or.inr h3
      · exact Or.inl ⟨t, by simp, by rw [h3]⟩

/-- C6 (counterexample): the success path admits non-placeholder keys into
the mapping: the parsed payload listing the entity
`{"original": "a", "masked": "XYZ", "category": "PERSON"}` yields
`mask_mapping = {"XYZ": "a"}`, whose key violates the placeholder grammar —
no validation happens. -/
theorem c6_counterexample :
    ∃ r, analyze_and_mask (sl "a")
        (some (payloadObj (sl "x") [(sl "a", sl "XYZ", sl "PERSON")])) (sl "") =
      Except.ok r ∧
      r.mask_mapping = [(.str (sl "XYZ"), .str (sl "a"))] ∧
      placeholderShaped (sl "XYZ") = false := by
  refine ⟨_, rfl, rfl, by decide⟩

/-- C6 (amended): the success path admits each entity's `masked` field as a
mapping key verbatim, without placeholder-grammar validation — every key is
a `masked` field of a listed entity, well-formed or not; only the recovery
path guarantees that every mapping key matches the grammar
`[A-Z_]+_[0-9]+` enclosed in brackets. -/
theorem c6_mapping_keys :
    (∀ (text mt payload : List Char) (ts : List (List Char × List Char × List Char))
      (r : MaskingResult),
      analyze_and_mask text (some (payloadObj mt ts)) payload = Except.ok r →
      ∀ q ∈ r.mask_mapping, ∃ t ∈ ts, q.1 = .str t.2.1) ∧
    (∀ (text payload : List Char) (r : MaskingResult),
      analyze_and_mask text none payload = Except.ok r →
      ∀ q ∈ r.mask_mapping, ∃ k, q.1 = .str k ∧ placeholderShaped k = true) := by
  constructor
  · intro text mt payload ts r hok q hq
    rw [analyze_payloadObj_eq] at hok
    injection hok with h
    subst h
    rcases mmOf_keys_aux ts [] q hq with h | h
    · exact h
    · simp at h
  · intro text payload r hok q hq
    have h0 : Except.ok (recoverFromRaw text payload) = Except.ok r := hok
    injection h0 with h
    subst h
    revert hq
    unfold recoverFromRaw
    cases hm : findMaskedText payload with
    | none => intro hq; simp at hq
    | some m =>
      intro hq
      have hinv := recFold_inv
        (fun c n => c ≠ [] ∧ (∀ ch ∈ c, isPhClassChar ch = true) ∧
          n ≠ [] ∧ (∀ ch ∈ n, ch.isDigit = true))
        (findAllPh m) (fun pr hpr => findAllPhFuel_shape _ _ pr hpr)
        ([], []) (by simp) (by simp)
      obtain ⟨c, n, ⟨hc, hcc, hn, hnn⟩, h1, h2⟩ := hinv.2 q hq
      exact ⟨phToken c n, h1, placeholderShaped_phToken c n hc hcc hn hnn⟩

/-- C6 (witness): the amended theorem evaluated concretely — a success-path
key traced to its entity, and a recovery-path key checked against the
grammar. -/
theorem c6_witness :
    (∃ t ∈ [(sl "Hans", sl "[PERSON_1]", sl "PERSON")],
      (JValue.str (sl "[PERSON_1]"), JValue.str (sl "Hans")).1 = JValue.str t.2.1) ∧
    (∃ k, (JValue.str (sl "[A_1]"), JValue.str (sl "<a_1>")).1 = JValue.str k ∧
      placeholderShaped k = true) := by
  constructor
  · exact c6_mapping_keys.1 (sl "t") (sl "x") (sl "")
      [(sl "Hans", sl "[PERSON_1]", sl "PERSON")] _ rfl _
      (by exact List.mem_singleton.mpr rfl)
  · exact c6_mapping_keys.2 (sl "t") (sl "\x7b\"masked_text\": \"[A_1]") _ rfl _
      (by exact List.mem_singleton.mpr rfl)

/-- C3 (counterexample): a research failure on an approved query resets
`workflow_state` to `idle` but does NOT clear `pending_query`: after a
successful masking pass stored the masked query, the failing approval leaves
the stale masked query in the session, contradicting "pending_query is
cleared or was never set". -/
theorem c3_counterexample :
    ((on_approve (handleMessageExternal initSession (sl "Frage über Hans")
        (Except.ok
          { original_text := sl "Frage über Hans"
            masked_text := .str (sl "Frage über [PERSON_1]")
            detected_entities := []
            mask_mapping := [(.str (sl "[PERSON_1]"), .str (sl "Hans"))]
            confidence := .num ((9 : ℚ) / 10) }))
      (Except.error SvcErr.serviceError) (Except.error SvcErr.serviceError)).1.workflow_state
      = WState.idle) ∧
    ((on_approve (handleMessageExternal initSession (sl "Frage über Hans")
        (Except.ok
          { original_text := sl "Frage über Hans"
            masked_text := .str (sl "Frage über [PERSON_1]")
            detected_entities := []
            mask_mapping := [(.str (sl "[PERSON_1]"), .str (sl "Hans"))]
            confidence := .num ((9 : ℚ) / 10) }))
      (Except.error SvcErr.serviceError) (Except.error SvcErr.serviceError)).1.pending_query
      = some (.str (sl "Frage über [PERSON_1]"))) ∧
    ((on_approve (handleMessageExternal initSession (sl "Frage über Hans")
        (Except.ok
          { original_text := sl "Frage über Hans"
            masked_text := .str (sl "Frage über [PERSON_1]")
            detected_entities := []
            mask_mapping := [(.str (sl "[PERSON_1]"), .str (sl "Hans"))]
            confidence := .num ((9 : ℚ) / 10) }))
      (Except.error SvcErr.serviceError) (Except.error SvcErr.serviceError)).1.pending_query
      ≠ none) := by
  refine ⟨rfl, rfl, ?_⟩
  intro h
  exact Option.noConfusion h

/-- C3 (amended): every handled failure — masking (entered through the
message handler), research, or synthesis — leaves `workflow_state` at
`idle`; but `pending_query` is NOT cleared by any failure handler: it
retains its previous value and is cleared only by a successful approval,
a cancel, or a new-query action. -/
theorem c3_failure_resets_state :
    (∀ (s : Session) (q : List Char) (e : PyErr),
      (handleMessageExternal s q (Except.error e)).workflow_state = WState.idle ∧
      (handleMessageExternal s q (Except.error e)).pending_query = s.pending_query) ∧
    (∀ (s : Session) (q : JValue) (e : SvcErr) (syn : Except SvcErr ReasoningResult),
      s.pending_query = some q → jfalsy q = false →
      (on_approve s (Except.error e) syn).1.workflow_state = WState.idle ∧
      (on_approve s (Except.error e) syn).1.pending_query = s.pending_query) ∧
    (∀ (s : Session) (q : JValue) (rr : ResearchResult) (e : SvcErr),
      s.pending_query = some q → jfalsy q = false →
      (on_approve s (Except.ok rr) (Except.error e)).1.workflow_state = WState.idle ∧
      (on_approve s (Except.ok rr) (Except.error e)).1.pending_query = s.pending_query) := by
  refine ⟨?_, ?_, ?_⟩
  · intro s q e
    unfold handleMessageExternal start_masking_workflow
    split
    · exact ⟨rfl, rfl⟩
    · rename_i hni
      simp only [ne_eq, Decidable.not_not] at hni
      exact ⟨hni, rfl⟩
  · intro s q e syn hpq hq
    unfold on_approve
    rw [hpq]
    simp [hq]
  · intro s q rr e hpq hq
    unfold on_approve
    rw [hpq]
    simp [hq]

/-- C3 (witness): the amended theorem at a concrete session — an injected
research failure and an injected synthesis failure both land in `idle`. -/
theorem c3_witness :
    ((on_approve
        { workflow_state := WState.awaiting_approval
          pending_query := some (.str (sl "[P_1]"))
          mask_mapping := []
          original_query := some (sl "q")
          detected_entities := [] }
        (Except.error SvcErr.serviceError)
        (Except.error SvcErr.serviceError)).1.workflow_state = WState.idle) ∧
    ((on_approve
        { workflow_state := WState.awaiting_approval
          pending_query := some (.str (sl "[P_1]"))
          mask_mapping := []
          original_query := some (sl "q")
          detected_entities := [] }
        (Except.ok { query := sl "[P_1]", response := sl "resp", sources := [],
                     model_used := sl "m" })
        (Except.error SvcErr.serviceError)).1.workflow_state = WState.idle) :=
  ⟨(c3_failure_resets_state.2.1 _ (.str (sl "[P_1]")) SvcErr.serviceError _ rfl rfl).1,
   (c3_failure_resets_state.2.2 _ (.str (sl "[P_1]"))
     { query := sl "[P_1]", response := sl "resp", sources := [], model_used := sl "m" }
     SvcErr.serviceError rfl rfl).1⟩

/-- C8: approving a pending masked query performs exactly one research call
followed by exactly one synthesis call, in that order, and the synthesis
call receives exactly the `mask_mapping` stored at masking time; on success
`workflow_state` resets to `idle` and `pending_query` is cleared.  (The
handler treats a falsy pending query — `None` or the empty string — as
absent, hence the hypothesis that the stored masked text is not falsy.) -/
theorem c8_approve_calls (s : Session) (q : List Char) (r : MaskingResult)
    (rr : ResearchResult) (fr : ReasoningResult)
    (hmask : jfalsy r.masked_text = false) :
    (on_approve (handleMessageExternal s q (Except.ok r))
        (Except.ok rr) (Except.ok fr)).2 =
      [Call.research r.masked_text,
       Call.synthesize (some q) rr.response r.mask_mapping] ∧
    (on_approve (handleMessageExternal s q (Except.ok r))
        (Except.ok rr) (Except.ok fr)).1.workflow_state = WState.idle ∧
    (on_approve (handleMessageExternal s q (Except.ok r))
        (Except.ok rr) (Except.ok fr)).1.pending_query = none := by
  have h0 : on_approve (handleMessageExternal s q (Except.ok r))
      (Except.ok rr) (Except.ok fr) =
      if jfalsy r.masked_text = true then (handleMessageExternal s q (Except.ok r), [])
      else
        ({ handleMessageExternal s q (Except.ok r) with
             workflow_state := WState.idle, pending_query := none },
         [Call.research r.masked_text,
          Call.synthesize (some q) rr.response r.mask_mapping]) := rfl
  rw [h0, if_neg (by rw [hmask]; exact Bool.false_ne_true)]
  exact ⟨rfl, rfl, rfl⟩

/-- C8 (witness): the full approved round at concrete inputs: one research
call on the stored masked text, then one synthesis call carrying the stored
mapping, ending `idle` with `pending_query` cleared. -/
theorem c8_witness :
    (on_approve (handleMessageExternal initSession (sl "Frage")
        (Except.ok
          { original_text := sl "Frage"
            masked_text := .str (sl "Was macht [PERSON_1]?")
            detected_entities := []
            mask_mapping := [(.str (sl "[PERSON_1]"), .str (sl "Hans"))]
            confidence := .num ((9 : ℚ) / 10) }))
      (Except.ok { query := sl "Was macht [PERSON_1]?", response := sl "Antwort",
                   sources := [], model_used := sl "m" })
      (Except.ok { final_response := sl "final" })).2 =
      [Call.research (.str (sl "Was macht [PERSON_1]?")),
       Call.synthesize (some (sl "Frage")) (sl "Antwort")
         [(.str (sl "[PERSON_1]"), .str (sl "Hans"))]] ∧
    (on_approve (handleMessageExternal initSession (sl "Frage")
        (Except.ok
          { original_text := sl "Frage"
            masked_text := .str (sl "Was macht [PERSON_1]?")
            detected_entities := []
            mask_mapping := [(.str (sl "[PERSON_1]"), .str (sl "Hans"))]
            confidence := .num ((9 : ℚ) / 10) }))
      (Except.ok { query := sl "Was macht [PERSON_1]?", response := sl "Antwort",
                   sources := [], model_used := sl "m" })
      (Except.ok { final_response := sl "final" })).1.workflow_state = WState.idle ∧
    (on_approve (handleMessageExternal initSession (sl "Frage")
        (Except.ok
          { original_text := sl "Frage"
            masked_text := .str (sl "Was macht [PERSON_1]?")
            detected_entities := []
            mask_mapping := [(.str (sl "[PERSON_1]"), .str (sl "Hans"))]
            confidence := .num ((9 : ℚ) / 10) }))
      (Except.ok { query := sl "Was macht [PERSON_1]?", response := sl "Antwort",
                   sources := [], model_used := sl "m" })
      (Except.ok { final_response := sl "final" })).1.pending_query = none :=
  c8_approve_calls initSession (sl "Frage")
    { original_text := sl "Frage"
      masked_text := .str (sl "Was macht [PERSON_1]?")
      detected_entities := []
      mask_mapping := [(.str (sl "[PERSON_1]"), .str (sl "Hans"))]
      confidence := .num ((9 : ℚ) / 10) }
    { query := sl "Was macht [PERSON_1]?", response := sl "Antwort",
      sources := [], model_used := sl "m" }
    { final_response := sl "final" } (by decide)

/-! ## Lemma library: substitution decompositions and the round trip -/

/-- Rendering a chunk block as masked text yields the block itself. -/
theorem renderM_chunks (v : List Char) (segs : List Seg) :
    renderM (v.map Sum.inl ++ segs) = v ++ renderM segs := by
  induction v with
  | nil => rfl
  | cons c v' ih =>
    show c :: renderM (v'.map Sum.inl ++ segs) = c :: (v' ++ renderM segs)
    rw [ih]

/-- Rendering a chunk block as original text yields the block itself. -/
theorem renderO_chunks (v : List Char) (segs : List Seg) :
    renderO (v.map Sum.inl ++ segs) = v ++ renderO segs := by
  induction v with
  | nil => rfl
  | cons c v' ih =>
    show c :: renderO (v'.map Sum.inl ++ segs) = c :: (v' ++ renderO segs)
    rw [ih]

/-- Two bracket-delimited cores agree when one is a prefix of the other's
rendering: the first `]` pins the length. -/
theorem bracket_core_eq :
    ∀ (a b w : List Char),
      (∀ c ∈ a, c ≠ '[' ∧ c ≠ ']') → (∀ c ∈ b, c ≠ '[' ∧ c ≠ ']') →
      (a ++ [']']) <+: (b ++ (']' :: w)) → a = b := by
  intro a
  induction a with
  | nil =>
    intro b w _ hb hpre
    cases b with
    | nil => rfl
    | cons d b' =>
      rw [List.nil_append, List.cons_append] at hpre
      rcases List.cons_prefix_cons.mp hpre with ⟨h1, _⟩
      exact absurd h1.symm (hb d (by simp)).2
  | cons c a' ih =>
    intro b w ha hb hpre
    cases b with
    | nil =>
      rw [List.nil_append, List.cons_append] at hpre
      rcases List.cons_prefix_cons.mp hpre with ⟨h1, _⟩
      exact absurd h1 (ha c (by simp)).2
    | cons d b' =>
      rw [List.cons_append, List.cons_append] at hpre
      rcases List.cons_prefix_cons.mp hpre with ⟨h1, h2⟩
      subst h1
      rw [ih b' w (fun x hx => ha x (by simp [hx])) (fun x hx => hb x (by simp [hx])) h2]

/-- A bracket token that matches at the start of another bracket token's
rendering is that token. -/
theorem bracketTok_prefix_eq {pat q w : List Char}
    (hp : bracketTok pat) (hq : bracketTok q)
    (hpre : pat.isPrefixOf (q ++ w) = true) : pat = q := by
  obtain ⟨a, hpa, hac⟩ := hp
  obtain ⟨b, hqb, hbc⟩ := hq
  subst hpa
  subst hqb
  rw [List.isPrefixOf_iff_prefix, List.cons_append] at hpre
  have hw : (b ++ [']']) ++ w = b ++ (']' :: w) := by
    rw [List.append_assoc]
    rfl
  rw [hw] at hpre
  rcases List.cons_prefix_cons.mp hpre with ⟨_, h2⟩
  rw [bracket_core_eq a b w hac hbc h2]

/-- Unfolding equations for rendering and selection on decompositions. -/
theorem renderM_cons_inl (c : Char) (segs : List Seg) :
    renderM (Sum.inl c :: segs) = c :: renderM segs := rfl

/-- Masked rendering of an entity occurrence emits its placeholder. -/
theorem renderM_cons_inr (pr : List Char × List Char) (segs : List Seg) :
    renderM (Sum.inr pr :: segs) = pr.1 ++ renderM segs := rfl

/-- Original rendering of a chunk emits its character. -/
theorem renderO_cons_inl (c : Char) (segs : List Seg) :
    renderO (Sum.inl c :: segs) = c :: renderO segs := rfl

/-- Original rendering of an entity occurrence emits its original value. -/
theorem renderO_cons_inr (pr : List Char × List Char) (segs : List Seg) :
    renderO (Sum.inr pr :: segs) = pr.2 ++ renderO segs := rfl

/-- Chunk selection walks over chunks. -/
theorem chunksOf_cons_inl (c : Char) (segs : List Seg) :
    chunksOf (Sum.inl c :: segs) = c :: chunksOf segs := rfl

/-- Chunk selection skips entity occurrences. -/
theorem chunksOf_cons_inr (pr : List Char × List Char) (segs : List Seg) :
    chunksOf (Sum.inr pr :: segs) = chunksOf segs := rfl

/-- Entry selection skips chunks. -/
theorem entriesOf_cons_inl (c : Char) (segs : List Seg) :
    entriesOf (Sum.inl c :: segs) = entriesOf segs := rfl

/-- Entry selection collects entity occurrences. -/
theorem entriesOf_cons_inr (pr : List Char × List Char) (segs : List Seg) :
    entriesOf (Sum.inr pr :: segs) = pr :: entriesOf segs := rfl

/-- Substitution walks over chunks. -/
theorem substSegs_cons_inl (c : Char) (segs : List Seg) (pat val : List Char) :
    substSegs (Sum.inl c :: segs) pat val = Sum.inl c :: substSegs segs pat val := rfl

/-- Substitution tests each entity occurrence against the pattern. -/
theorem substSegs_cons_inr (pr : List Char × List Char) (segs : List Seg)
    (pat val : List Char) :
    substSegs (Sum.inr pr :: segs) pat val =
      (if pr.1 = pat then val.map Sum.inl else [Sum.inr pr]) ++ substSegs segs pat val := rfl

/-- One replacement pass on the masked rendering of a decomposition
substitutes exactly the occurrences of the matching placeholder. -/
theorem replAux_renderM (core oval : List Char)
    (hcore : ∀ c ∈ core, c ≠ '[' ∧ c ≠ ']') :
    ∀ segs : List Seg,
      (∀ c ∈ chunksOf segs, c ≠ '[') →
      (∀ pr ∈ entriesOf segs, bracketTok pr.1) →
      replAux (renderM segs) '[' (core ++ [']']) oval =
        renderM (substSegs segs ('[' :: (core ++ [']'])) oval) := by
  intro segs
  induction segs with
  | nil => intro _ _; rfl
  | cons sg segs' ih =>
    intro hchunk hents
    match sg with
    | Sum.inl c =>
      have hc : c ≠ '[' := hchunk c (by rw [chunksOf_cons_inl]; exact List.mem_cons_self _ _)
      have ihx := ih
        (fun d hd => hchunk d (by rw [chunksOf_cons_inl]; exact List.mem_cons_of_mem _ hd))
        (fun q hq => hents q (by rw [entriesOf_cons_inl]; exact hq))
      rw [renderM_cons_inl, substSegs_cons_inl, renderM_cons_inl,
        replAux_cons, isPrefixOf_cons_of_ne _ _ hc]
      simp only [Bool.false_eq_true, if_false, List.cons.injEq, true_and]
      exact ihx
    | Sum.inr pr =>
      have hbq : bracketTok pr.1 :=
        hents pr (by rw [entriesOf_cons_inr]; exact List.mem_cons_self _ _)
      have ihx := ih
        (fun d hd => hchunk d (by rw [chunksOf_cons_inr]; exact hd))
        (fun q hq => hents q (by rw [entriesOf_cons_inr]; exact List.mem_cons_of_mem _ hq))
      rw [renderM_cons_inr, substSegs_cons_inr]
      by_cases hpr : pr.1 = '[' :: (core ++ [']'])
      · rw [if_pos hpr, hpr, replAux_head, renderM_chunks, ihx]
      · rw [if_neg hpr, List.singleton_append, renderM_cons_inr]
        have hnp : ('[' :: (core ++ [']'])).isPrefixOf (pr.1 ++ renderM segs') = false := by
          cases hb : ('[' :: (core ++ [']'])).isPrefixOf (pr.1 ++ renderM segs') with
          | false => rfl
          | true => exact absurd (bracketTok_prefix_eq ⟨core, rfl, hcore⟩ hbq hb).symm hpr
        obtain ⟨qcore, hq1, hq2⟩ := hbq
        rw [hq1, List.cons_append, replAux_cons]
        have hnp' : ('[' :: (core ++ [']'])).isPrefixOf
            ('[' :: ((qcore ++ [']']) ++ renderM segs')) = false := by
          have hca : ('[' :: (qcore ++ [']'])) ++ renderM segs' =
              '[' :: ((qcore ++ [']']) ++ renderM segs') := List.cons_append _ _ _
          rw [← hca, ← hq1]
          exact hnp
        rw [hnp']
        simp only [Bool.false_eq_true, if_false]
        have hx : ∀ c ∈ qcore ++ [']'], c ≠ '[' := by
          intro c hc
          rcases List.mem_append.mp hc with h | h
          · exact (hq2 c h).1
          · have hcr : c = ']' := by simpa using h
            subst hcr
            decide
        rw [replAux_append_of_ne _ _ _ _ _ hx, ihx]
        rfl

/-- A decomposition without entity occurrences renders identically in both
directions. -/
theorem renderM_eq_renderO_of_no_entries :
    ∀ segs : List Seg, entriesOf segs = [] → renderM segs = renderO segs := by
  intro segs
  induction segs with
  | nil => intro _; rfl
  | cons sg segs' ih =>
    intro h
    match sg with
    | Sum.inl c =>
      rw [entriesOf_cons_inl] at h
      rw [renderM_cons_inl, renderO_cons_inl, ih h]
    | Sum.inr pr =>
      rw [entriesOf_cons_inr] at h
      exact absurd h (by simp)

/-- Substituting a placeholder by the value it maps to preserves the
original rendering. -/
theorem renderO_substSegs (pat val : List Char) :
    ∀ segs : List Seg,
      (∀ pr ∈ entriesOf segs, pr.1 = pat → pr.2 = val) →
      renderO (substSegs segs pat val) = renderO segs := by
  intro segs
  induction segs with
  | nil => intro _; rfl
  | cons sg segs' ih =>
    intro h
    match sg with
    | Sum.inl c =>
      rw [substSegs_cons_inl, renderO_cons_inl, renderO_cons_inl,
        ih (fun q hq hq1 => h q (by rw [entriesOf_cons_inl]; exact hq) hq1)]
    | Sum.inr pr =>
      rw [substSegs_cons_inr]
      by_cases hpr : pr.1 = pat
      · rw [if_pos hpr, renderO_chunks, renderO_cons_inr,
          h pr (by rw [entriesOf_cons_inr]; exact List.mem_cons_self _ _) hpr,
          ih (fun q hq hq1 =>
            h q (by rw [entriesOf_cons_inr]; exact List.mem_cons_of_mem _ hq) hq1)]
      · rw [if_neg hpr, List.singleton_append, renderO_cons_inr,
          ih (fun q hq hq1 =>
            h q (by rw [entriesOf_cons_inr]; exact List.mem_cons_of_mem _ hq) hq1)]
        rw [renderO_cons_inr]

/-- Chunk selection over a chunk block. -/
theorem chunksOf_chunks (v : List Char) (segs : List Seg) :
    chunksOf (v.map Sum.inl ++ segs) = v ++ chunksOf segs := by
  induction v with
  | nil => rfl
  | cons c v' ih =>
    show c :: chunksOf (v'.map Sum.inl ++ segs) = c :: (v' ++ chunksOf segs)
    rw [ih]

/-- Entry selection over a chunk block. -/
theorem entriesOf_chunks (v : List Char) (segs : List Seg) :
    entriesOf (v.map Sum.inl ++ segs) = entriesOf segs := by
  induction v with
  | nil => rfl
  | cons c v' ih =>
    show entriesOf (v'.map Sum.inl ++ segs) = entriesOf segs
    exact ih

/-- Chunks after a substitution come from the old chunks or the substituted
value. -/
theorem chunksOf_substSegs (pat val : List Char) :
    ∀ segs : List Seg, ∀ c ∈ chunksOf (substSegs segs pat val),
      c ∈ chunksOf segs ∨ c ∈ val := by
  intro segs
  induction segs with
  | nil => intro c hc; exact absurd hc (by simp [chunksOf, substSegs])
  | cons sg segs' ih =>
    intro c hc
    match sg with
    | Sum.inl d =>
      rw [substSegs_cons_inl, chunksOf_cons_inl] at hc
      rw [chunksOf_cons_inl]
      rcases List.mem_cons.mp hc with h | h
      · exact Or.inl (by rw [h]; exact List.mem_cons_self _ _)
      · rcases ih c h with h' | h'
        · exact Or.inl (List.mem_cons_of_mem _ h')
        · exact Or.inr h'
    | Sum.inr pr =>
      rw [substSegs_cons_inr] at hc
      rw [chunksOf_cons_inr]
      by_cases hpr : pr.1 = pat
      · rw [if_pos hpr, chunksOf_chunks] at hc
        rcases List.mem_append.mp hc with h | h
        · exact Or.inr h
        · exact ih c h
      · rw [if_neg hpr, List.singleton_append, chunksOf_cons_inr] at hc
        exact ih c hc

/-- Entries after a substitution are old entries whose placeholder differs
from the pattern. -/
theorem entriesOf_substSegs (pat val : List Char) :
    ∀ segs : List Seg, ∀ pr ∈ entriesOf (substSegs segs pat val),
      pr ∈ entriesOf segs ∧ pr.1 ≠ pat := by
  intro segs
  induction segs with
  | nil => intro pr hpr; exact absurd hpr (by simp [entriesOf, substSegs])
  | cons sg segs' ih =>
    intro pr hpr
    match sg with
    | Sum.inl d =>
      rw [substSegs_cons_inl, entriesOf_cons_inl] at hpr
      rw [entriesOf_cons_inl]
      exact ih pr hpr
    | Sum.inr q =>
      rw [substSegs_cons_inr] at hpr
      rw [entriesOf_cons_inr]
      by_cases hq : q.1 = pat
      · rw [if_pos hq, entriesOf_chunks] at hpr
        obtain ⟨h1, h2⟩ := ih pr hpr
        exact ⟨List.mem_cons_of_mem _ h1, h2⟩
      · rw [if_neg hq, List.singleton_append, entriesOf_cons_inr] at hpr
        rcases List.mem_cons.mp hpr with h | h
        · subst h
          exact ⟨List.mem_cons_self _ _, hq⟩
        · obtain ⟨h1, h2⟩ := ih pr h
          exact ⟨List.mem_cons_of_mem _ h1, h2⟩

/-- The round trip over a substitution decomposition: restoring the masked
rendering with a bracket-disciplined mapping recovers the original
rendering. -/
theorem unmask_renderM :
    ∀ m : List (List Char × List Char),
      (∀ pr ∈ m, bracketTok pr.1) →
      (m.map Prod.fst).Nodup →
      (∀ pr ∈ m, ∀ c ∈ pr.2, c ≠ '[') →
      ∀ segs : List Seg,
        (∀ c ∈ chunksOf segs, c ≠ '[') →
        (∀ pr ∈ entriesOf segs, pr ∈ m) →
        unmask_text (renderM segs) m = renderO segs := by
  intro m
  induction m with
  | nil =>
    intro _ _ _ segs _ hmem
    have hem : entriesOf segs = [] :=
      List.eq_nil_iff_forall_not_mem.mpr (fun pr hpr => by simpa using hmem pr hpr)
    show renderM segs = renderO segs
    exact renderM_eq_renderO_of_no_entries segs hem
  | cons kv m' ih =>
    intro hbr hnd hval segs hchunk hmem
    obtain ⟨core, hk, hkc⟩ := hbr kv (List.mem_cons_self _ _)
    have hstep : pyReplace (renderM segs) kv.1 kv.2 =
        renderM (substSegs segs kv.1 kv.2) := by
      rw [hk]
      show replAux (renderM segs) '[' (core ++ [']']) kv.2 =
        renderM (substSegs segs ('[' :: (core ++ [']'])) kv.2)
      exact replAux_renderM core kv.2 hkc segs hchunk
        (fun pr hpr => hbr pr (hmem pr hpr))
    show unmask_text (pyReplace (renderM segs) kv.1 kv.2) m' = renderO segs
    rw [hstep]
    rw [ih (fun pr hpr => hbr pr (List.mem_cons_of_mem _ hpr))
        (by rw [List.map_cons] at hnd; exact (List.nodup_cons.mp hnd).2)
        (fun pr hpr => hval pr (List.mem_cons_of_mem _ hpr))
        (substSegs segs kv.1 kv.2)
        (fun c hc => by
          rcases chunksOf_substSegs kv.1 kv.2 segs c hc with h | h
          · exact hchunk c h
          · exact hval kv (List.mem_cons_self _ _) c h)
        (fun pr hpr => by
          obtain ⟨h1, h2⟩ := entriesOf_substSegs kv.1 kv.2 segs pr hpr
          rcases List.mem_cons.mp (hmem pr h1) with h | h
          · exact absurd (by rw [h]) h2
          · exact h)]
    apply renderO_substSegs
    intro pr hpr hpr1
    rcases List.mem_cons.mp (hmem pr hpr) with h | h
    · rw [h]
    · exfalso
      rw [List.map_cons] at hnd
      exact (List.nodup_cons.mp hnd).1 (by rw [← hpr1]; exact List.mem_map_of_mem _ h)

/-- C4 (counterexample): the round trip fails as stated when the original
text itself contains placeholder text: on input `"[P_1]x"` the upstream
masks the single entity `x` as `[P_1]` (so the masked text
`"[P_1][P_1]"` is exactly the original with each mapped original replaced
by its placeholder, witnessed by the decomposition), yet unmasking yields
`"xx"`, not the original. -/
theorem c4_counterexample :
    ∃ r, analyze_and_mask (sl "[P_1]x")
        (some (payloadObj (sl "[P_1][P_1]") [(sl "x", sl "[P_1]", sl "X")])) (sl "") =
      Except.ok r ∧
      r.mask_mapping = [(JValue.str (sl "[P_1]"), JValue.str (sl "x"))] ∧
      r.masked_text = .str (sl "[P_1][P_1]") ∧
      renderO ((sl "[P_1]").map Sum.inl ++ [Sum.inr (sl "[P_1]", sl "x")]) =
        sl "[P_1]x" ∧
      renderM ((sl "[P_1]").map Sum.inl ++ [Sum.inr (sl "[P_1]", sl "x")]) =
        sl "[P_1][P_1]" ∧
      entriesOf ((sl "[P_1]").map Sum.inl ++ [Sum.inr (sl "[P_1]", sl "x")]) =
        [(sl "[P_1]", sl "x")] ∧
      unmask_text (sl "[P_1][P_1]") [(sl "[P_1]", sl "x")] ≠ sl "[P_1]x" := by
  refine ⟨_, rfl, rfl, rfl, by decide, by decide, by decide, by decide⟩

/-- C4 (amended): the round trip holds for every result of a successful
parse whose masked text is obtained from the original by substituting each
mapped original with its placeholder (a common decomposition renders both
texts), PROVIDED the mapping is bracket-disciplined: placeholders are
bracket-delimited tokens with distinct keys, and neither the substituted
values nor the surrounding text contain `[`.  The counterexample above
violates the last condition. -/
theorem c4_roundtrip (text payload : List Char) (v : JValue) (r : MaskingResult)
    (m : List (List Char × List Char)) (segs : List Seg)
    (hok : analyze_and_mask text (some v) payload = Except.ok r)
    (hmap : r.mask_mapping = m.map (fun pr => (JValue.str pr.1, JValue.str pr.2)))
    (hmasked : r.masked_text = .str (renderM segs))
    (horig : renderO segs = text)
    (hbr : ∀ pr ∈ m, bracketTok pr.1)
    (hnd : (m.map Prod.fst).Nodup)
    (hval : ∀ pr ∈ m, ∀ c ∈ pr.2, c ≠ '[')
    (hchunk : ∀ c ∈ chunksOf segs, c ≠ '[')
    (hmem : ∀ pr ∈ entriesOf segs, pr ∈ m) :
    unmask_text (renderM segs) m = text := by
  rw [← horig]
  exact unmask_renderM m hbr hnd hval segs hchunk hmem

/-- C4 (witness): the spec's own scenario — masking
`"Kontakt: Hans Müller, hans@firma.de"` to
`"Kontakt: [PERSON_1], [EMAIL_1]"` — unmasks back to the original. -/
theorem c4_witness :
    unmask_text
      (renderM ((sl "Kontakt: ").map Sum.inl ++
        ([Sum.inr (sl "[PERSON_1]", sl "Hans Müller")] ++
          ((sl ", ").map Sum.inl ++ [Sum.inr (sl "[EMAIL_1]", sl "hans@firma.de")]))))
      [(sl "[PERSON_1]", sl "Hans Müller"), (sl "[EMAIL_1]", sl "hans@firma.de")] =
      sl "Kontakt: Hans Müller, hans@firma.de" := by
  refine c4_roundtrip (sl "Kontakt: Hans Müller, hans@firma.de") (sl "")
    (payloadObj (sl "Kontakt: [PERSON_1], [EMAIL_1]")
      [(sl "Hans Müller", sl "[PERSON_1]", sl "PERSON"),
       (sl "hans@firma.de", sl "[EMAIL_1]", sl "EMAIL")])
    { original_text := sl "Kontakt: Hans Müller, hans@firma.de"
      masked_text := .str (sl "Kontakt: [PERSON_1], [EMAIL_1]")
      detected_entities := deOf
        [(sl "Hans Müller", sl "[PERSON_1]", sl "PERSON"),
         (sl "hans@firma.de", sl "[EMAIL_1]", sl "EMAIL")]
      mask_mapping := mmOf
        [(sl "Hans Müller", sl "[PERSON_1]", sl "PERSON"),
         (sl "hans@firma.de", sl "[EMAIL_1]", sl "EMAIL")]
      confidence := .num ((9 : ℚ) / 10) }
    [(sl "[PERSON_1]", sl "Hans Müller"), (sl "[EMAIL_1]", sl "hans@firma.de")]
    ((sl "Kontakt: ").map Sum.inl ++
      ([Sum.inr (sl "[PERSON_1]", sl "Hans Müller")] ++
        ((sl ", ").map Sum.inl ++ [Sum.inr (sl "[EMAIL_1]", sl "hans@firma.de")])))
    rfl rfl rfl (by decide) ?_ (by decide) (by decide) (by decide) (by decide)
  intro pr hpr
  rcases List.mem_cons.mp hpr with h | h
  · subst h
    exact ⟨sl "PERSON_1", by decide, by decide⟩
  · have h' : pr = (sl "[EMAIL_1]", sl "hans@firma.de") := by simpa using h
    subst h'
    exact ⟨sl "EMAIL_1", by decide, by decide⟩
